import Mathlib

/-!
# Block floating-point codec (`src/main.cpp`)

A shallow embedding of the BFP2/BFP4/BFP8 codec: shared-exponent resolution,
scalar quantizer and dequantizer, word packing and tile serialisation.

Conventions of the embedding.

* `uint32_t` / `uint8_t` values are natural numbers; where the C++ arithmetic can
  wrap, the wrap is written out (`% 2 ^ 32`, `% 256`).  `int32_t` temporaries are
  integers.
* A `float` is represented by its bit pattern (the code only ever looks at a float
  through `reinterpret_cast<uint32_t*>`), so a `std::vector<float>` is a list of
  `FloatWord`s.
* `vec[i]` on a `std::vector` is `List.getD _ i 0`; the checked access `vec.at(i)`
  is `vec[i]?` and the functions using it return an `Option`.
* Template parameters (`BfpFormat`, `truncate_bfp_mantissa`) are ordinary
  arguments.  `TT_ASSERT` expands to nothing in the source, so it is not modelled.
* `while` loops run on a fuel argument; the lemmas `shift_loop_spec` and
  `normalize_loop_exit` show that the fuel supplied is never exhausted.
-/

namespace Bfp

/-- The format tags of `enum class DataFormat`. -/
inductive DataFormat where
  | Float32 | Float16 | Bfp8 | Bfp4 | Bfp2 | Float16_b | Bfp8_b | Bfp4_b | Bfp2_b
  | Lf8 | Fp8_e4m3 | Int8 | Tf32 | UInt8 | UInt16 | Int32 | UInt32
  | RawUInt8 | RawUInt16 | RawUInt32 | Invalid
  deriving DecidableEq, Repr

open DataFormat

def TILE_HEIGHT : Nat := 32
def TILE_WIDTH : Nat := 32
def FACE_HEIGHT : Nat := 16
def FACE_WIDTH : Nat := 16

/-- The condition inside the (compiled-out) `TT_ASSERT` on the format tag. -/
def is_bfp (f : DataFormat) : Bool :=
  f == Bfp2 || f == Bfp4 || f == Bfp8 || f == Bfp2_b || f == Bfp4_b || f == Bfp8_b

/-- The constant `MANTISSA_BFP_WIDTH` of `convert_u32_to_bfp`. -/
def MANTISSA_BFP_WIDTH (f : DataFormat) : Nat :=
  if f == Bfp2 || f == Bfp2_b then 1 else if f == Bfp4 || f == Bfp4_b then 3 else 7

/-- The constant `MANTISSA_BFP_SHIFT`. -/
def MANTISSA_BFP_SHIFT (f : DataFormat) : Nat := 24 - MANTISSA_BFP_WIDTH f

/-- The constant `MANTISSA_BFP_MAX_VAL`. -/
def MANTISSA_BFP_MAX_VAL (f : DataFormat) : Nat := (1 <<< MANTISSA_BFP_WIDTH f) - 1

/-- The constants `nums_in_dword` / `num_mantissas_in_dword`. -/
def nums_in_dword (f : DataFormat) : Nat :=
  if f == Bfp2 || f == Bfp2_b then 16 else if f == Bfp4 || f == Bfp4_b then 8 else 4

/-- Source `get_max_exp`, lines 50-77. -/
def get_max_exp (vec : List Nat) (is_exp_a : Bool) : Nat :=
  ((List.range 16).foldl (fun max i =>
      let exp := (vec.getD i 0 &&& 0x7f800000) >>> 23
      let exp :=
        if is_exp_a then
          let se : Int := (exp : Int) - 127 + 15
          let se : Int := if se > 31 then 31 else if se < 0 then 0 else se
          se.toNat
        else exp
      if exp > max then exp else max) 0) % 256

/-- Source `get_exp_dword`, lines 79-87. -/
def get_exp_dword (vec : List Nat) : Nat :=
  (List.range 4).foldl (fun tmp i => tmp ||| (((vec.getD i 0 &&& 0xff) <<< (i * 8)) % 2 ^ 32)) 0

/-- Source `get_byte`, lines 89-95. -/
def get_byte (word index : Nat) : Nat :=
  let mask := (0xff <<< (8 * index)) % 2 ^ 32
  let masked := word &&& mask
  masked >>> (8 * index)

/-- Lines 139-154 of `convert_u32_to_bfp`: the pair `(exp, mantissa)` after the
optional rebias from bias 127 to bias 15 with its two saturations. -/
def rebias_exp_mantissa (exp mantissa : Nat) (is_exp_a : Bool) : Nat × Nat :=
  if is_exp_a then
    let se : Int := (exp : Int) - 127 + 15
    if se > 31 then (31, 0x007fffff)
    else if se < 0 then (0, 0x0)
    else (se.toNat, mantissa)
  else (exp, mantissa)

/-- The loop `while (exp_diff > 31) { mantissa = mantissa >> 31; exp_diff -= 31; }`
of lines 167-170, returning the final `(mantissa, exp_diff)`. -/
def shift_loop : Nat → Nat → Nat → Nat × Nat
  | 0, mantissa, exp_diff => (mantissa, exp_diff)
  | fuel + 1, mantissa, exp_diff =>
    if exp_diff > 31 then shift_loop fuel (mantissa >>> 31) (exp_diff - 31)
    else (mantissa, exp_diff)

/-- Lines 161-173 of `convert_u32_to_bfp`: alignment of the 24-bit mantissa to the
shared exponent. -/
def align_mantissa (mantissa shared_exp exp : Nat) : Nat :=
  if shared_exp >= exp then
    let exp_diff := shared_exp - exp
    let r := shift_loop exp_diff mantissa exp_diff
    r.1 >>> r.2
  else mantissa

/-- Lines 175-189 of `convert_u32_to_bfp`: reduction to `MANTISSA_BFP_WIDTH` bits. -/
def reduce_mantissa (f : DataFormat) (truncate_bfp_mantissa : Bool) (mantissa : Nat) : Nat :=
  if truncate_bfp_mantissa then
    mantissa >>> MANTISSA_BFP_SHIFT f
  else
    let mantissa := (mantissa + (1 <<< (MANTISSA_BFP_SHIFT f - 1))) % 2 ^ 32
    let mantissa := mantissa >>> MANTISSA_BFP_SHIFT f
    if mantissa > MANTISSA_BFP_MAX_VAL f then MANTISSA_BFP_MAX_VAL f else mantissa

/-- Source `convert_u32_to_bfp<BfpFormat, truncate_bfp_mantissa>`, lines 97-197. -/
def convert_u32_to_bfp (f : DataFormat) (truncate_bfp_mantissa : Bool)
    (input shared_exp : Nat) (is_exp_a : Bool) : Nat :=
  let EXP_MANTISSA_BMSK := (1 <<< 31) - 1
  let is_zero := (input &&& EXP_MANTISSA_BMSK) == 0
  if is_zero then 0
  else
    let mantissa := input &&& 0x007fffff
    let exp := (input &&& 0x7f800000) >>> 23
    let sign := (input &&& 0x80000000) >>> 31
    let em := rebias_exp_mantissa exp mantissa is_exp_a
    let exp := em.1
    let mantissa := em.2
    let mantissa := (1 <<< 23) ||| mantissa
    let mantissa := align_mantissa mantissa shared_exp exp
    let mantissa := reduce_mantissa f truncate_bfp_mantissa mantissa
    let sign := if 0 == mantissa then 0 else sign
    let mantissa := (sign <<< MANTISSA_BFP_WIDTH f) ||| mantissa
    mantissa % 256

/-- The loop `while ((man & top) == 0) { man = man << 1; shift_cnt++; }` of the
Bfp4 and Bfp8 branches of `convert_bfp_to_u32`, returning `(man, shift_cnt)`. -/
def normalize_loop (top : Nat) : Nat → Nat → Nat → Nat × Nat
  | 0, man, shift_cnt => (man, shift_cnt)
  | fuel + 1, man, shift_cnt =>
    if (man &&& top) == 0 then normalize_loop top fuel ((man <<< 1) % 2 ^ 32) (shift_cnt + 1)
    else (man, shift_cnt)

/-- Source `convert_bfp_to_u32`, lines 199-300. -/
def convert_bfp_to_u32 (bfp_format : DataFormat) (data shared_exp : Nat) (is_exp_a : Bool) : Nat :=
  let exp := shared_exp
  if bfp_format == Bfp2_b || bfp_format == Bfp2 then
    let sign := data >>> 1
    let man := data &&& 0x1
    let shift_cnt := 0
    let me : Nat × Nat :=
      if man == 0 then (0, 0)
      else
        let man := (man <<< 1) % 2 ^ 32
        let man := man &&& 0x1
        let exp := (exp + 2 ^ 32 - shift_cnt) % 2 ^ 32
        let exp := if is_exp_a then (exp + 2 ^ 32 - 15 + 127) % 2 ^ 32 else exp
        (man, exp)
    ((sign <<< 31) % 2 ^ 32) ||| ((me.2 <<< 23) % 2 ^ 32) ||| ((me.1 <<< 22) % 2 ^ 32)
  else if bfp_format == Bfp4_b || bfp_format == Bfp4 then
    let sign := data >>> 3
    let man := data &&& 0x7
    let me : Nat × Nat :=
      if man == 0 then (0, 0)
      else
        let r := normalize_loop 0x04 32 man 0
        let man := r.1
        let shift_cnt := r.2
        let man := (man <<< 1) % 2 ^ 32
        let man := man &&& 0x7
        let exp := (exp + 2 ^ 32 - shift_cnt) % 2 ^ 32
        let exp := if is_exp_a then (exp + 2 ^ 32 - 15 + 127) % 2 ^ 32 else exp
        (man, exp)
    ((sign <<< 31) % 2 ^ 32) ||| ((me.2 <<< 23) % 2 ^ 32) ||| ((me.1 <<< 20) % 2 ^ 32)
  else if bfp_format == Bfp8_b || bfp_format == Bfp8 then
    let sign := data >>> 7
    let man := data &&& 0x7f
    let me : Nat × Nat :=
      if man == 0 then (0, 0)
      else
        let r := normalize_loop 0x40 32 man 0
        let man := r.1
        let shift_cnt := r.2
        let man := (man <<< 1) % 2 ^ 32
        let man := man &&& 0x7f
        let exp := (exp + 2 ^ 32 - shift_cnt) % 2 ^ 32
        let exp := if is_exp_a then (exp + 2 ^ 32 - 15 + 127) % 2 ^ 32 else exp
        (man, exp)
    ((sign <<< 31) % 2 ^ 32) ||| ((me.2 <<< 23) % 2 ^ 32) ||| ((me.1 <<< 16) % 2 ^ 32)
  else 0

/-- Source `create_packed_bfp_packed_as_u32`, lines 302-325 (the loop runs from
`nums_in_dword - 1` down to `0`; the quantizer is instantiated with
`truncate_bfp_mantissa = false`). -/
def create_packed_bfp_packed_as_u32 (f : DataFormat) (u32_vec : List Nat) (shared_exp : Nat)
    (is_exp_a : Bool) : Nat :=
  let mask := (1 <<< (32 / nums_in_dword f)) - 1
  (List.range (nums_in_dword f)).reverse.foldl (fun tmp_o i =>
      let conv_num := convert_u32_to_bfp f false (u32_vec.getD i 0) shared_exp is_exp_a
      let tmp_o := (tmp_o <<< (32 / nums_in_dword f)) % 2 ^ 32
      tmp_o ||| (conv_num &&& mask)) 0

/-- Spec section 4.1: the exponent of one element as the resolver sees it, the raw
8-bit field (Native) or `clamp(e - 127 + 15, 0, 31)` (Rebiased). -/
def resolved_exp (e : Nat) (is_exp_a : Bool) : Nat :=
  if is_exp_a then (max 0 (min 31 ((e : Int) - 127 + 15))).toNat else e

/-- The 16 bit patterns of the block of `adamw_bfp8b_zero_grad_case` after
`clearLower16Bits`. -/
def adamw_block : List Nat :=
  [0x3D0A0000, 0x3D0A0000, 0x3D0A0000, 0x3D0A0000, 0x3D0A0000, 0x3CE10000, 0x3A510000,
   0xBCAC0000, 0xBD8A0000, 0xBDCA0000, 0xBDE70000, 0xBE020000, 0xBD4B0000, 0x39D10000,
   0x3D130000, 0x3D400000]

/-- The dequantizing procedure of the Bfp4 and Bfp8 branches of `convert_bfp_to_u32`
with the mantissa width `w` as a parameter: leading-one search at bit `w - 1`, one
more shift, mask to `w` bits, exponent correction, assembly. It is used to treat
the three branches uniformly and to compare the Bfp2 branch with the other two. -/
def generic_dequant (w data shared_exp : Nat) (is_exp_a : Bool) : Nat :=
  let exp := shared_exp
  let sign := data >>> w
  let man := data &&& (2 ^ w - 1)
  let me : Nat × Nat :=
    if man == 0 then (0, 0)
    else
      let r := normalize_loop (2 ^ (w - 1)) 32 man 0
      let man := r.1
      let shift_cnt := r.2
      let man := (man <<< 1) % 2 ^ 32
      let man := man &&& (2 ^ w - 1)
      let exp := (exp + 2 ^ 32 - shift_cnt) % 2 ^ 32
      let exp := if is_exp_a then (exp + 2 ^ 32 - 15 + 127) % 2 ^ 32 else exp
      (man, exp)
  ((sign <<< 31) % 2 ^ 32) ||| ((me.2 <<< 23) % 2 ^ 32) ||| ((me.1 <<< (23 - w)) % 2 ^ 32)

/-- One iteration of the loop `for (uint32_t u32_datum : single_row)` (lines 390-397
and 453-460) on the pair (`data`, packed words): push the datum and, when `data`
holds a multiple of `num_mantissas_in_dword` elements, pack it and clear it. -/
def pack_datum (f : DataFormat) (exp : Nat) (is_exp_a : Bool) (acc : List Nat × List Nat)
    (u32_datum : Nat) : List Nat × List Nat :=
  let data := acc.1 ++ [u32_datum]
  if data.length % nums_in_dword f == 0 then
    ([], acc.2 ++ [create_packed_bfp_packed_as_u32 f data exp is_exp_a])
  else (data, acc.2)

/-- The function-level and tile-level variables of `pack_fp32_vec_as_bfp_tiles`. -/
structure PackState where
  packed_result : List Nat
  exponents : List Nat
  data : List Nat
  packed_data : List Nat
  fp32_element_index : Nat
  deriving Repr, DecidableEq

/-- Lines 368-380: gather the 16 elements of one row through `fp32_vec.at`, returning
the row and the updated `fp32_element_index`; `none` when `at` throws. -/
def populate_row (fp32_vec : List Nat) (row_major_input : Bool) (tile_index tr tc i : Nat)
    (fp32_element_index : Nat) : Option (List Nat × Nat) :=
  (List.range FACE_WIDTH).foldlM (fun (acc : List Nat × Nat) j => do
      let data_index :=
        if row_major_input then
          (tr * FACE_HEIGHT + i) * TILE_WIDTH + (tc * FACE_WIDTH + j)
            + (TILE_HEIGHT * TILE_WIDTH) * tile_index
        else acc.2
      let next := if row_major_input then acc.2 else acc.2 + 1
      let float_num ← fp32_vec[data_index]?
      pure (acc.1 ++ [float_num], next)) ([], fp32_element_index)

/-- Lines 383-388 on the pair (`packed_result`, `exponents`): push the row exponent
and, when `exponents` holds a multiple of `num_exponents_in_dword = 4` bytes, pack
them into one word and clear the buffer. -/
def push_exponent (acc : List Nat × List Nat) (exp : Nat) : List Nat × List Nat :=
  let exponents := acc.2 ++ [exp]
  if exponents.length % 4 == 0 then (acc.1 ++ [get_exp_dword exponents], [])
  else (acc.1, exponents)

/-- Lines 367-398: the body of the loop over the rows `i` of one face. -/
def process_row (f : DataFormat) (fp32_vec : List Nat) (row_major_input is_exp_a : Bool)
    (tile_index tr tc : Nat) (st : PackState) (i : Nat) : Option PackState := do
  let r ← populate_row fp32_vec row_major_input tile_index tr tc i st.fp32_element_index
  let single_row := r.1
  let exp := get_max_exp single_row is_exp_a
  let pe := push_exponent (st.packed_result, st.exponents) exp
  let dp := single_row.foldl (pack_datum f exp is_exp_a) (st.data, st.packed_data)
  pure { packed_result := pe.1, exponents := pe.2, data := dp.1,
         packed_data := dp.2, fp32_element_index := r.2 }

/-- Lines 363-412: the body of the loop over tiles. -/
def process_tile (f : DataFormat) (fp32_vec : List Nat) (row_major_input is_exp_a : Bool)
    (st : PackState) (tile_index : Nat) : Option PackState := do
  let st := { st with packed_data := [] }
  let st ← (List.range (TILE_HEIGHT / FACE_HEIGHT)).foldlM (fun st tr =>
      (List.range (TILE_WIDTH / FACE_WIDTH)).foldlM (fun st tc =>
        (List.range FACE_HEIGHT).foldlM
          (process_row f fp32_vec row_major_input is_exp_a tile_index tr tc) st) st) st
  pure { st with packed_result := st.packed_result ++ st.packed_data }

/-- Source `pack_fp32_vec_as_bfp_tiles`, lines 327-415; `none` stands for the
`std::out_of_range` of `fp32_vec.at`. -/
def pack_fp32_vec_as_bfp_tiles (f : DataFormat) (fp32_vec : List Nat)
    (row_major_input is_exp_a : Bool) : Option (List Nat) := do
  let num_tiles := fp32_vec.length / (TILE_HEIGHT * TILE_WIDTH)
  let st ← (List.range num_tiles).foldlM (process_tile f fp32_vec row_major_input is_exp_a)
    { packed_result := [], exponents := [], data := [], packed_data := [],
      fp32_element_index := 0 }
  pure st.packed_result

/-- Source `pack_fp32_vec_as_bfp_one_block`, lines 417-463, returning
(`exponents`, `packed_result`); `none` stands for the `std::out_of_range` of
`fp32_vec.at`. -/
def pack_fp32_vec_as_bfp_one_block (f : DataFormat) (fp32_vec : List Nat)
    (is_exp_a : Bool) : Option (List Nat × List Nat) := do
  let r ← (List.range FACE_WIDTH).foldlM (fun (acc : List Nat × Nat) _ => do
      let data_index := acc.2
      let float_num ← fp32_vec[data_index]?
      pure (acc.1 ++ [float_num], acc.2 + 1)) ([], 0)
  let single_row := r.1
  let exp := get_max_exp single_row is_exp_a
  let exponents := [exp]
  let dp := single_row.foldl (pack_datum f exp is_exp_a) ([], [])
  pure (exponents, dp.2)

/-! ### Vocabulary for the layout statements -/

/-- The value of a list of `b`-bit slots, slot 0 in the least significant bits. -/
def le_value (b : Nat) : List Nat → Nat
  | [] => 0
  | c :: cs => c % 2 ^ b + 2 ^ b * le_value b cs

/-- The data words of one row: word `w` packs the elements `w*K .. w*K + K - 1`
against the row's shared exponent. -/
def row_words (f : DataFormat) (exp : Nat) (is_exp_a : Bool) (row : List Nat) : List Nat :=
  (List.range (16 / nums_in_dword f)).map (fun w =>
    create_packed_bfp_packed_as_u32 f ((row.drop (w * nums_in_dword f)).take (nums_in_dword f))
      exp is_exp_a)

/-- Input index of element `j` of row `r` of tile `t`, the 64 rows of a tile being
numbered face by face (faces top-left, top-right, bottom-left, bottom-right, 16 rows
each): with `row_major_input` the tile is a 32 x 32 row-major matrix, otherwise the
rows are consecutive 16-element chunks. -/
def tile_index_of (row_major_input : Bool) (t r j : Nat) : Nat :=
  if row_major_input then (r / 32 * 16 + r % 16) * 32 + (r / 16 % 2 * 16 + j) + 1024 * t
  else 1024 * t + 16 * r + j

/-- Row `r` of tile `t` of the input. -/
def tile_row (vec : List Nat) (row_major_input : Bool) (t r : Nat) : List Nat :=
  (List.range 16).map (fun j => vec.getD (tile_index_of row_major_input t r j) 0)

/-- The 16 exponent words of tile `t`. -/
def tile_exp_words (vec : List Nat) (row_major_input is_exp_a : Bool) (t : Nat) : List Nat :=
  (List.range 16).map (fun k => get_exp_dword
    [get_max_exp (tile_row vec row_major_input t (4 * k)) is_exp_a,
     get_max_exp (tile_row vec row_major_input t (4 * k + 1)) is_exp_a,
     get_max_exp (tile_row vec row_major_input t (4 * k + 2)) is_exp_a,
     get_max_exp (tile_row vec row_major_input t (4 * k + 3)) is_exp_a])

/-- The data words of tile `t`, row after row. -/
def tile_data_words (f : DataFormat) (vec : List Nat) (row_major_input is_exp_a : Bool)
    (t : Nat) : List Nat :=
  (List.range 64).flatMap (fun r =>
    row_words f (get_max_exp (tile_row vec row_major_input t r) is_exp_a) is_exp_a
      (tile_row vec row_major_input t r))

/-- The words tile `t` contributes to the output. -/
def tile_words (f : DataFormat) (vec : List Nat) (row_major_input is_exp_a : Bool)
    (t : Nat) : List Nat :=
  tile_exp_words vec row_major_input is_exp_a t ++ tile_data_words f vec row_major_input is_exp_a t

/-- The reference definition of the quantizer under the Native convention, in exact
arithmetic on the fields of the input: sign `s`, 8-bit exponent `e`, 23-bit
mantissa `m`, `M = 2^23 + m`, one floor division for the alignment, then truncation
or round-half-up with clamping. -/
def reference_quantizer (f : DataFormat) (truncate_bfp_mantissa : Bool) (x S : Nat) : Nat :=
  let W := MANTISSA_BFP_WIDTH f
  let shift := 24 - W
  let s := x / 2 ^ 31 % 2
  let e := x / 2 ^ 23 % 256
  let m := x % 2 ^ 23
  let M := 2 ^ 23 + m
  let A := if S ≥ e then M / 2 ^ (S - e) else M
  let magnitude :=
    if truncate_bfp_mantissa then A / 2 ^ shift
    else min ((A + 2 ^ (shift - 1)) / 2 ^ shift) (2 ^ W - 1)
  if magnitude ≠ 0 then s * 2 ^ W + magnitude else 0

/-! ## Bit-field lemmas -/

theorem and_mantissa_mask (x : Nat) : x &&& 0x007fffff = x % 2 ^ 23 :=
  Nat.and_pow_two_sub_one_eq_mod x 23

theorem and_exp_mantissa_mask (x : Nat) : x &&& ((1 <<< 31) - 1) = x % 2 ^ 31 :=
  Nat.and_pow_two_sub_one_eq_mod x 31

theorem exp_field_eq (x : Nat) : (x &&& 0x7f800000) >>> 23 = x / 2 ^ 23 % 256 := by
  apply Nat.eq_of_testBit_eq
  intro i
  rw [Nat.testBit_shiftRight, Nat.testBit_and, show (256 : Nat) = 2 ^ 8 from rfl,
    Nat.testBit_mod_two_pow, ← Nat.shiftRight_eq_div_pow, Nat.testBit_shiftRight]
  by_cases h : i < 8
  · have hb : Nat.testBit 0x7f800000 (23 + i) = true := by
      interval_cases i <;> decide
    simp [h, hb]
  · have hb : Nat.testBit 0x7f800000 (23 + i) = false := by
      apply Nat.testBit_lt_two_pow
      calc (0x7f800000 : Nat) < 2 ^ 31 := by norm_num
        _ ≤ 2 ^ (23 + i) := Nat.pow_le_pow_right (by norm_num) (by omega)
    simp [h, hb]

theorem sign_field_eq (x : Nat) : (x &&& 0x80000000) >>> 31 = x / 2 ^ 31 % 2 := by
  apply Nat.eq_of_testBit_eq
  intro i
  have h2 : x / 2 ^ 31 % 2 = (x >>> 31) % 2 ^ 1 := by
    rw [Nat.shiftRight_eq_div_pow, pow_one]
  rw [h2, Nat.testBit_shiftRight, Nat.testBit_and, Nat.testBit_mod_two_pow,
    Nat.testBit_shiftRight]
  by_cases h : i < 1
  · have hi : i = 0 := by omega
    subst hi
    have hb : Nat.testBit 0x80000000 (31 + 0) = true := by decide
    simp [hb]
  · have hb : Nat.testBit 0x80000000 (31 + i) = false := by
      apply Nat.testBit_lt_two_pow
      calc (0x80000000 : Nat) < 2 ^ 32 := by norm_num
        _ ≤ 2 ^ (31 + i) := Nat.pow_le_pow_right (by norm_num) (by omega)
    simp [h, hb]

theorem shiftLeft_or_eq_add (a b i : Nat) (h : b < 2 ^ i) : (a <<< i) ||| b = a * 2 ^ i + b := by
  rw [Nat.shiftLeft_eq, Nat.mul_comm, Nat.mul_add_lt_is_or h]

theorem width_cases (f : DataFormat) :
    MANTISSA_BFP_WIDTH f = 1 ∨ MANTISSA_BFP_WIDTH f = 3 ∨ MANTISSA_BFP_WIDTH f = 7 := by
  unfold MANTISSA_BFP_WIDTH
  split
  · exact Or.inl rfl
  · split
    · exact Or.inr (Or.inl rfl)
    · exact Or.inr (Or.inr rfl)

/-! ## The quantizer, stage by stage -/

/-- With fuel at least `exp_diff` the chunked shift is one right shift by `exp_diff`,
and the loop has really exited (the remaining count is at most 31). -/
theorem shift_loop_spec (fuel : Nat) : ∀ (mantissa exp_diff : Nat), exp_diff ≤ fuel →
    (shift_loop fuel mantissa exp_diff).2 ≤ 31 ∧
    (shift_loop fuel mantissa exp_diff).1 >>> (shift_loop fuel mantissa exp_diff).2
      = mantissa >>> exp_diff := by
  induction fuel with
  | zero =>
    intro m d hd
    have : d = 0 := by omega
    subst this
    simp [shift_loop]
  | succ n ih =>
    intro m d hd
    unfold shift_loop
    by_cases h : d > 31
    · rw [if_pos h]
      obtain ⟨h1, h2⟩ := ih (m >>> 31) (d - 31) (by omega)
      refine ⟨h1, ?_⟩
      rw [h2, ← Nat.shiftRight_add]
      congr 1
      omega
    · rw [if_neg h]
      exact ⟨by omega, rfl⟩

theorem align_mantissa_eq (mantissa shared_exp exp : Nat) :
    align_mantissa mantissa shared_exp exp =
      if exp ≤ shared_exp then mantissa / 2 ^ (shared_exp - exp) else mantissa := by
  unfold align_mantissa
  by_cases h : exp ≤ shared_exp
  · have h' : shared_exp ≥ exp := h
    simp only [h, h', if_true]
    rw [(shift_loop_spec (shared_exp - exp) mantissa (shared_exp - exp) (le_refl _)).2,
      Nat.shiftRight_eq_div_pow]
  · have h' : ¬ shared_exp ≥ exp := h
    simp only [h, h', if_false]

theorem align_mantissa_le (mantissa shared_exp exp : Nat) :
    align_mantissa mantissa shared_exp exp ≤ mantissa := by
  rw [align_mantissa_eq]
  split
  · exact Nat.div_le_self _ _
  · exact le_refl _

theorem rebias_exp_mantissa_native (exp mantissa : Nat) :
    rebias_exp_mantissa exp mantissa false = (exp, mantissa) := by
  simp [rebias_exp_mantissa]

theorem rebias_exp_mantissa_high (exp mantissa : Nat) (h : 144 ≤ exp) :
    rebias_exp_mantissa exp mantissa true = (31, 0x007fffff) := by
  have h1 : (exp : Int) - 127 + 15 > 31 := by omega
  simp [rebias_exp_mantissa, h1]

theorem rebias_exp_mantissa_low (exp mantissa : Nat) (h : exp ≤ 111) :
    rebias_exp_mantissa exp mantissa true = (0, 0) := by
  have h1 : ¬ ((exp : Int) - 127 + 15 > 31) := by omega
  have h2 : (exp : Int) - 127 + 15 < 0 := by omega
  simp only [rebias_exp_mantissa, if_true, h1, h2, if_false]

theorem rebias_exp_mantissa_mid (exp mantissa : Nat) (h1 : 112 ≤ exp) (h2 : exp ≤ 143) :
    rebias_exp_mantissa exp mantissa true = (exp - 112, mantissa) := by
  have h3 : ¬ ((exp : Int) - 127 + 15 > 31) := by omega
  have h4 : ¬ ((exp : Int) - 127 + 15 < 0) := by omega
  have h5 : ((exp : Int) - 127 + 15).toNat = exp - 112 := by omega
  simp only [rebias_exp_mantissa, if_true, h3, h4, if_false, h5]

theorem rebias_mantissa_lt (exp mantissa : Nat) (is_exp_a : Bool) (h : mantissa < 2 ^ 23) :
    (rebias_exp_mantissa exp mantissa is_exp_a).2 < 2 ^ 23 := by
  cases is_exp_a with
  | false => rw [rebias_exp_mantissa_native]; exact h
  | true =>
    by_cases h1 : 144 ≤ exp
    · rw [rebias_exp_mantissa_high _ _ h1]; norm_num
    · by_cases h2 : exp ≤ 111
      · rw [rebias_exp_mantissa_low _ _ h2]; norm_num
      · rw [rebias_exp_mantissa_mid _ _ (by omega) (by omega)]; exact h

theorem rebias_exp_le (exp mantissa : Nat) (h : exp ≤ 255) :
    (rebias_exp_mantissa exp mantissa true).1 ≤ 31 := by
  by_cases h1 : 144 ≤ exp
  · rw [rebias_exp_mantissa_high _ _ h1]
  · by_cases h2 : exp ≤ 111
    · rw [rebias_exp_mantissa_low _ _ h2]; exact Nat.zero_le _
    · rw [rebias_exp_mantissa_mid _ _ (by omega) (by omega)]
      show exp - 112 ≤ 31
      omega

/-- Rounding and truncation as exact arithmetic, for a mantissa of at most 24 bits. -/
theorem reduce_mantissa_eq (f : DataFormat) (t : Bool) (a : Nat) (ha : a < 2 ^ 24) :
    reduce_mantissa f t a =
      if t then a / 2 ^ (24 - MANTISSA_BFP_WIDTH f)
      else min ((a + 2 ^ (23 - MANTISSA_BFP_WIDTH f)) / 2 ^ (24 - MANTISSA_BFP_WIDTH f))
        (2 ^ MANTISSA_BFP_WIDTH f - 1) := by
  unfold reduce_mantissa MANTISSA_BFP_SHIFT MANTISSA_BFP_MAX_VAL
  cases t with
  | true => simp [Nat.shiftRight_eq_div_pow]
  | false =>
    simp only [Bool.false_eq_true, if_false, Nat.shiftRight_eq_div_pow, Nat.shiftLeft_eq, one_mul]
    have hw := width_cases f
    have hsub : 24 - MANTISSA_BFP_WIDTH f - 1 = 23 - MANTISSA_BFP_WIDTH f := by omega
    rw [hsub]
    have hlt : a + 2 ^ (23 - MANTISSA_BFP_WIDTH f) < 2 ^ 32 := by
      have : 2 ^ (23 - MANTISSA_BFP_WIDTH f) ≤ 2 ^ 23 :=
        Nat.pow_le_pow_right (by norm_num) (by omega)
      have h24 : (2 : Nat) ^ 24 + 2 ^ 23 < 2 ^ 32 := by norm_num
      omega
    rw [Nat.mod_eq_of_lt hlt]
    split
    · rw [Nat.min_def]; split
      · omega
      · rfl
    · rw [Nat.min_def]; split
      · rfl
      · omega

theorem reduce_mantissa_le (f : DataFormat) (t : Bool) (a : Nat) (ha : a < 2 ^ 24) :
    reduce_mantissa f t a ≤ 2 ^ MANTISSA_BFP_WIDTH f - 1 := by
  rw [reduce_mantissa_eq f t a ha]
  cases t with
  | true =>
    simp only [if_true]
    have hw := width_cases f
    have hpow : 2 ^ (24 - MANTISSA_BFP_WIDTH f) * 2 ^ MANTISSA_BFP_WIDTH f = 2 ^ 24 := by
      rw [← pow_add]; congr 1; omega
    have hlt : a / 2 ^ (24 - MANTISSA_BFP_WIDTH f) < 2 ^ MANTISSA_BFP_WIDTH f := by
      apply Nat.div_lt_of_lt_mul
      rw [hpow]; exact ha
    omega
  | false =>
    simp only [Bool.false_eq_true, if_false]
    exact Nat.min_le_right _ _

theorem convert_u32_to_bfp_of_zero (f : DataFormat) (t : Bool) (x s : Nat) (ea : Bool)
    (hx : x % 2 ^ 31 = 0) : convert_u32_to_bfp f t x s ea = 0 := by
  simp only [convert_u32_to_bfp, and_exp_mantissa_mask, hx, beq_self_eq_true, if_true]

/-- The quantizer as arithmetic on the fields of a non-zero input. -/
theorem convert_u32_to_bfp_eq (f : DataFormat) (t : Bool) (x s : Nat) (ea : Bool)
    (hx : x % 2 ^ 31 ≠ 0) :
    convert_u32_to_bfp f t x s ea =
      (if reduce_mantissa f t (align_mantissa
          (2 ^ 23 + (rebias_exp_mantissa (x / 2 ^ 23 % 256) (x % 2 ^ 23) ea).2) s
          (rebias_exp_mantissa (x / 2 ^ 23 % 256) (x % 2 ^ 23) ea).1) = 0 then 0
       else x / 2 ^ 31 % 2) * 2 ^ MANTISSA_BFP_WIDTH f
      + reduce_mantissa f t (align_mantissa
          (2 ^ 23 + (rebias_exp_mantissa (x / 2 ^ 23 % 256) (x % 2 ^ 23) ea).2) s
          (rebias_exp_mantissa (x / 2 ^ 23 % 256) (x % 2 ^ 23) ea).1) := by
  unfold convert_u32_to_bfp
  simp only [and_exp_mantissa_mask, and_mantissa_mask, exp_field_eq, sign_field_eq]
  have hz : ((x % 2 ^ 31) == 0) = false := by simpa using hx
  simp only [hz, Bool.false_eq_true, if_false]
  have hm := rebias_mantissa_lt (x / 2 ^ 23 % 256) (x % 2 ^ 23) ea (Nat.mod_lt _ (by norm_num))
  generalize rebias_exp_mantissa (x / 2 ^ 23 % 256) (x % 2 ^ 23) ea = em at hm ⊢
  have h23 : (1 <<< 23) ||| em.2 = 2 ^ 23 + em.2 := by
    rw [shiftLeft_or_eq_add 1 em.2 23 hm, one_mul]
  rw [h23]
  have ha : align_mantissa (2 ^ 23 + em.2) s em.1 < 2 ^ 24 := by
    have := align_mantissa_le (2 ^ 23 + em.2) s em.1
    have h24 : (2 : Nat) ^ 24 = 2 ^ 23 + 2 ^ 23 := by norm_num
    omega
  have hr := reduce_mantissa_le f t _ ha
  generalize reduce_mantissa f t (align_mantissa (2 ^ 23 + em.2) s em.1) = q at hr ⊢
  have hw := width_cases f
  have hpos : 0 < 2 ^ MANTISSA_BFP_WIDTH f := Nat.pow_pos (by norm_num)
  have hq : q < 2 ^ MANTISSA_BFP_WIDTH f := by omega
  rw [shiftLeft_or_eq_add _ q _ hq]
  have hs : x / 2 ^ 31 % 2 < 2 := Nat.mod_lt _ (by norm_num)
  have hle : 2 ^ MANTISSA_BFP_WIDTH f ≤ 2 ^ 7 := Nat.pow_le_pow_right (by norm_num) (by omega)
  by_cases hq0 : q = 0
  · subst hq0
    simp
  · have hne : (0 == q) = false := by
      rw [beq_eq_false_iff_ne]; exact fun h => hq0 h.symm
    simp only [hne, Bool.false_eq_true, if_false, hq0]
    apply Nat.mod_eq_of_lt
    have : x / 2 ^ 31 % 2 * 2 ^ MANTISSA_BFP_WIDTH f ≤ 1 * 2 ^ MANTISSA_BFP_WIDTH f :=
      Nat.mul_le_mul_right _ (by omega)
    norm_num at hle
    omega

/-! ## The shared exponent -/

theorem foldl_max_spec (g : Nat → Nat) (l : List Nat) (init : Nat) :
    init ≤ l.foldl (fun max i => if g i > max then g i else max) init ∧
    (∀ i ∈ l, g i ≤ l.foldl (fun max i => if g i > max then g i else max) init) ∧
    (l.foldl (fun max i => if g i > max then g i else max) init = init ∨
      ∃ i ∈ l, l.foldl (fun max i => if g i > max then g i else max) init = g i) := by
  induction l generalizing init with
  | nil => simp
  | cons a l ih =>
    simp only [List.foldl_cons, List.mem_cons]
    obtain ⟨h1, h2, h3⟩ := ih (if g a > init then g a else init)
    have hstep : init ≤ (if g a > init then g a else init) ∧
        g a ≤ (if g a > init then g a else init) := by
      split <;> omega
    refine ⟨le_trans hstep.1 h1, ?_, ?_⟩
    · intro i hi
      rcases hi with rfl | hi
      · exact le_trans hstep.2 h1
      · exact h2 i hi
    · rcases h3 with h3 | ⟨i, hi, h3⟩
      · by_cases hg : g a > init
        · right
          refine ⟨a, Or.inl rfl, ?_⟩
          rw [h3, if_pos hg]
        · left
          rw [h3, if_neg hg]
      · exact Or.inr ⟨i, Or.inr hi, h3⟩

theorem resolved_exp_le (e : Nat) (ea : Bool) (he : e ≤ 255) : resolved_exp e ea ≤ 255 := by
  unfold resolved_exp
  cases ea with
  | false => simpa using he
  | true => simp only [if_true]; omega

theorem get_max_exp_eq (vec : List Nat) (ea : Bool) :
    get_max_exp vec ea =
      (List.range 16).foldl (fun max i =>
        if resolved_exp (vec.getD i 0 / 2 ^ 23 % 256) ea > max
        then resolved_exp (vec.getD i 0 / 2 ^ 23 % 256) ea else max) 0 := by
  have hfun : (fun (max i : Nat) =>
      let exp := (vec.getD i 0 &&& 0x7f800000) >>> 23
      let exp :=
        if ea then
          let se : Int := (exp : Int) - 127 + 15
          let se : Int := if se > 31 then 31 else if se < 0 then 0 else se
          se.toNat
        else exp
      if exp > max then exp else max) =
      (fun max i => if resolved_exp (vec.getD i 0 / 2 ^ 23 % 256) ea > max
        then resolved_exp (vec.getD i 0 / 2 ^ 23 % 256) ea else max) := by
    funext max i
    simp only [exp_field_eq]
    have hr : (if ea then
          ((if ((vec.getD i 0 / 2 ^ 23 % 256 : Nat) : Int) - 127 + 15 > 31 then (31 : Int)
            else if ((vec.getD i 0 / 2 ^ 23 % 256 : Nat) : Int) - 127 + 15 < 0 then 0
            else ((vec.getD i 0 / 2 ^ 23 % 256 : Nat) : Int) - 127 + 15)).toNat
        else vec.getD i 0 / 2 ^ 23 % 256) = resolved_exp (vec.getD i 0 / 2 ^ 23 % 256) ea := by
      unfold resolved_exp
      cases ea with
      | false => rfl
      | true =>
        simp only [if_true]
        split
        · omega
        · split <;> omega
    rw [hr]
  unfold get_max_exp
  rw [hfun]
  apply Nat.mod_eq_of_lt
  set g := fun i => resolved_exp (vec.getD i 0 / 2 ^ 23 % 256) ea with hg
  obtain ⟨_, _, h3⟩ := foldl_max_spec g (List.range 16) 0
  have hgle : ∀ i, g i ≤ 255 := fun i =>
    resolved_exp_le _ ea (by have := Nat.mod_lt (vec.getD i 0 / 2 ^ 23) (show 256 > 0 by norm_num); omega)
  rcases h3 with h3 | ⟨i, _, h3⟩
  · rw [h3]; norm_num
  · rw [h3]; have := hgle i; omega

theorem get_max_exp_ge (vec : List Nat) (ea : Bool) (i : Nat) (hi : i < 16) :
    resolved_exp (vec.getD i 0 / 2 ^ 23 % 256) ea ≤ get_max_exp vec ea := by
  rw [get_max_exp_eq]
  exact (foldl_max_spec (fun i => resolved_exp (vec.getD i 0 / 2 ^ 23 % 256) ea)
    (List.range 16) 0).2.1 i (List.mem_range.mpr hi)

theorem get_max_exp_attained (vec : List Nat) (ea : Bool) :
    ∃ i, i < 16 ∧ get_max_exp vec ea = resolved_exp (vec.getD i 0 / 2 ^ 23 % 256) ea := by
  rw [get_max_exp_eq]
  have h := foldl_max_spec (fun i => resolved_exp (vec.getD i 0 / 2 ^ 23 % 256) ea)
    (List.range 16) 0
  rcases h.2.2 with h3 | ⟨i, hi, h3⟩
  · refine ⟨0, by norm_num, ?_⟩
    have h0 := h.2.1 0 (List.mem_range.mpr (by norm_num))
    rw [h3] at h0 ⊢
    exact (Nat.le_zero.mp h0).symm
  · exact ⟨i, List.mem_range.mp hi, h3⟩

theorem get_max_exp_le (vec : List Nat) (ea : Bool) : get_max_exp vec ea ≤ 255 := by
  obtain ⟨i, _, h⟩ := get_max_exp_attained vec ea
  rw [h]
  exact resolved_exp_le _ ea
    (by have := Nat.mod_lt (vec.getD i 0 / 2 ^ 23) (show 256 > 0 by norm_num); omega)

/-- The exponent the quantizer works with is the resolver's exponent of that element. -/
theorem rebias_exp_eq_resolved (e m : Nat) (ea : Bool) :
    (rebias_exp_mantissa e m ea).1 = resolved_exp e ea := by
  unfold rebias_exp_mantissa resolved_exp
  cases ea with
  | false => rfl
  | true =>
    simp only [if_true]
    split
    · omega
    · split
      · omega
      · omega

/-! ## The dequantizer -/

theorem and_two_pow_eq_zero_iff (q k : Nat) : q &&& 2 ^ k = 0 ↔ q.testBit k = false := by
  constructor
  · intro h
    have := Nat.testBit_and q (2 ^ k) k
    rw [h, Nat.zero_testBit, Nat.testBit_two_pow_self, Bool.and_true] at this
    exact this.symm
  · intro h
    apply Nat.eq_of_testBit_eq
    intro i
    rw [Nat.testBit_and, Nat.zero_testBit, Nat.testBit_two_pow]
    by_cases hki : k = i
    · subst hki; simp [h]
    · simp [hki]

theorem testBit_of_range (q k : Nat) (h1 : 2 ^ k ≤ q) (h2 : q < 2 ^ (k + 1)) :
    q.testBit k = true := by
  rw [Nat.testBit_to_div_mod]
  have : q / 2 ^ k = 1 := by
    apply Nat.div_eq_of_lt_le
    · simpa using h1
    · rw [pow_succ] at h2; omega
  simp [this]

/-- The leading-one search: a magnitude whose leading one sits `d` places below bit
`k` is shifted up `d` times, provided the fuel is at least `d`. -/
theorem normalize_loop_spec (k : Nat) (hk : k ≤ 30) : ∀ (d fuel q c : Nat), d ≤ k → d ≤ fuel →
    2 ^ (k - d) ≤ q → q < 2 ^ (k - d + 1) →
    normalize_loop (2 ^ k) fuel q c = (q * 2 ^ d, c + d) := by
  intro d
  induction d with
  | zero =>
    intro fuel q c _ _ h1 h2
    have hbit : q.testBit k = true := testBit_of_range q k h1 h2
    have hne : ¬ (q &&& 2 ^ k = 0) := by
      rw [and_two_pow_eq_zero_iff, hbit]; simp
    cases fuel with
    | zero => simp [normalize_loop]
    | succ n => simp [normalize_loop, hne]
  | succ d ih =>
    intro fuel q c hdk hfuel h1 h2
    obtain ⟨n, rfl⟩ : ∃ n, fuel = n + 1 := ⟨fuel - 1, by omega⟩
    have hsub : k - (d + 1) + 1 = k - d := by omega
    rw [hsub] at h2
    have hqk : q < 2 ^ k := lt_of_lt_of_le h2 (Nat.pow_le_pow_right (by norm_num) (by omega))
    have hz : q &&& 2 ^ k = 0 := by
      rw [and_two_pow_eq_zero_iff]; exact Nat.testBit_lt_two_pow hqk
    have hk32 : (2 : Nat) ^ (k + 1) ≤ 2 ^ 32 := Nat.pow_le_pow_right (by norm_num) (by omega)
    have hk1 : (2 : Nat) ^ (k + 1) = 2 * 2 ^ k := by rw [pow_succ, Nat.mul_comm]
    have hsh : (q <<< 1) % 2 ^ 32 = q * 2 := by
      rw [Nat.shiftLeft_eq, pow_one]
      apply Nat.mod_eq_of_lt
      omega
    have hpd : (2 : Nat) ^ (k - d) = 2 * 2 ^ (k - (d + 1)) := by
      rw [← pow_succ']; congr 1; omega
    have hpd1 : (2 : Nat) ^ (k - d + 1) = 2 * 2 ^ (k - d) := by rw [pow_succ, Nat.mul_comm]
    unfold normalize_loop
    simp only [hz, beq_self_eq_true, if_true, hsh]
    rw [ih n (q * 2) (c + 1) (by omega) (by omega) (by omega) (by omega)]
    congr 1
    · rw [pow_succ]; ring
    · omega

/-- With the 32 units of fuel the dequantizer supplies, the search on a non-zero
magnitude below `2^(k+1)` stops because the exit test of the loop holds. -/
theorem normalize_loop_exit (k q : Nat) (hk : k ≤ 30) (h0 : q ≠ 0) (hq : q < 2 ^ (k + 1)) :
    ((normalize_loop (2 ^ k) 32 q 0).1 &&& 2 ^ k) ≠ 0 ∧ (normalize_loop (2 ^ k) 32 q 0).2 ≤ k := by
  have hpos : 0 < q := Nat.pos_of_ne_zero h0
  have hlog : Nat.log2 q ≤ k := by
    have h1 : q.log2 < k + 1 := (Nat.log2_lt h0).mpr hq
    omega
  have hlo : 2 ^ (k - (k - Nat.log2 q)) ≤ q := by
    have : k - (k - Nat.log2 q) = Nat.log2 q := by omega
    rw [this]; exact Nat.log2_self_le h0
  have hhi : q < 2 ^ (k - (k - Nat.log2 q) + 1) := by
    have : k - (k - Nat.log2 q) = Nat.log2 q := by omega
    rw [this]; exact (Nat.log2_lt h0).mp (Nat.lt_succ_self _)
  rw [normalize_loop_spec k hk (k - Nat.log2 q) 32 q 0 (by omega) (by omega) hlo hhi]
  refine ⟨?_, by simp⟩
  show ¬ (q * 2 ^ (k - Nat.log2 q) &&& 2 ^ k = 0)
  rw [and_two_pow_eq_zero_iff]
  have hbit : (q * 2 ^ (k - Nat.log2 q)).testBit k = true := by
    apply testBit_of_range
    · calc 2 ^ k = 2 ^ (Nat.log2 q) * 2 ^ (k - Nat.log2 q) := by
            rw [← pow_add]; congr 1; omega
        _ ≤ q * 2 ^ (k - Nat.log2 q) := Nat.mul_le_mul_right _ (Nat.log2_self_le h0)
    · calc q * 2 ^ (k - Nat.log2 q) < 2 ^ (Nat.log2 q + 1) * 2 ^ (k - Nat.log2 q) :=
            Nat.mul_lt_mul_of_pos_right ((Nat.log2_lt h0).mp (Nat.lt_succ_self _))
              (Nat.pow_pos (by norm_num))
        _ = 2 ^ (k + 1) := by rw [← pow_add]; congr 1; omega
  rw [hbit]; simp

theorem convert_bfp_to_u32_generic (f : DataFormat) (hf : is_bfp f = true)
    (data shared_exp : Nat) (is_exp_a : Bool) :
    convert_bfp_to_u32 f data shared_exp is_exp_a =
      generic_dequant (MANTISSA_BFP_WIDTH f) data shared_exp is_exp_a := by
  have h2 : ∀ g, (g == Bfp2_b || g == Bfp2) = true →
      convert_bfp_to_u32 g data shared_exp is_exp_a =
        generic_dequant 1 data shared_exp is_exp_a := by
    intro g hg
    unfold convert_bfp_to_u32 generic_dequant
    simp only [hg, if_true]
    by_cases hm : data &&& 1 = 0
    · simp [hm]
    · have h1 : data &&& 1 = 1 := by
        rw [Nat.and_one_is_mod] at hm ⊢; omega
      simp only [show (2 : Nat) ^ 1 - 1 = 1 from rfl, h1]
      rfl
  have h4 : ∀ g, (g == Bfp2_b || g == Bfp2) = false → (g == Bfp4_b || g == Bfp4) = true →
      convert_bfp_to_u32 g data shared_exp is_exp_a =
        generic_dequant 3 data shared_exp is_exp_a := by
    intro g hg hg4
    unfold convert_bfp_to_u32 generic_dequant
    simp only [hg, hg4, if_true, Bool.false_eq_true, if_false]
    rfl
  have h8 : ∀ g, (g == Bfp2_b || g == Bfp2) = false → (g == Bfp4_b || g == Bfp4) = false →
      (g == Bfp8_b || g == Bfp8) = true →
      convert_bfp_to_u32 g data shared_exp is_exp_a =
        generic_dequant 7 data shared_exp is_exp_a := by
    intro g hg hg4 hg8
    unfold convert_bfp_to_u32 generic_dequant
    simp only [hg, hg4, hg8, if_true, Bool.false_eq_true, if_false]
    rfl
  cases f with
  | Bfp2 => exact h2 _ rfl
  | Bfp2_b => exact h2 _ rfl
  | Bfp4 => exact h4 _ rfl rfl
  | Bfp4_b => exact h4 _ rfl rfl
  | Bfp8 => exact h8 _ rfl rfl rfl
  | Bfp8_b => exact h8 _ rfl rfl rfl
  | _ => exact absurd hf (by decide)

/-- Assembly `(sign << 31) | (exp << 23) | (man << (23 - w))` as a sum, when the
three fields do not overlap. -/
theorem assemble_eq (sg X man w : Nat) (hw : w ≤ 23) (hsg : sg ≤ 1) (hX : X ≤ 255)
    (hman : man < 2 ^ w) :
    ((sg <<< 31) % 2 ^ 32) ||| ((X <<< 23) % 2 ^ 32) ||| ((man <<< (23 - w)) % 2 ^ 32)
      = sg * 2 ^ 31 + X * 2 ^ 23 + man * 2 ^ (23 - w) := by
  have hmw : man * 2 ^ (23 - w) < 2 ^ 23 := by
    calc man * 2 ^ (23 - w) < 2 ^ w * 2 ^ (23 - w) :=
          Nat.mul_lt_mul_of_pos_right hman (Nat.pow_pos (by norm_num))
      _ = 2 ^ 23 := by rw [← pow_add]; congr 1; omega
  have hX23 : X * 2 ^ 23 < 2 ^ 31 := by norm_num; omega
  have h1 : (sg <<< 31) % 2 ^ 32 = 2 ^ 31 * sg := by
    rw [Nat.shiftLeft_eq, Nat.mul_comm]
    apply Nat.mod_eq_of_lt
    norm_num; omega
  have h2 : (X <<< 23) % 2 ^ 32 = X * 2 ^ 23 := by
    rw [Nat.shiftLeft_eq]
    apply Nat.mod_eq_of_lt
    norm_num; omega
  have h3 : (man <<< (23 - w)) % 2 ^ 32 = man * 2 ^ (23 - w) := by
    rw [Nat.shiftLeft_eq]
    apply Nat.mod_eq_of_lt
    have : (2 : Nat) ^ 23 < 2 ^ 32 := by norm_num
    omega
  rw [h1, h2, h3, ← Nat.mul_add_lt_is_or hX23]
  have h4 : 2 ^ 31 * sg + X * 2 ^ 23 = 2 ^ 23 * (2 ^ 8 * sg + X) := by ring
  rw [h4, ← Nat.mul_add_lt_is_or hmw]
  ring

theorem generic_dequant_zero (w sg E : Nat) (ea : Bool) :
    generic_dequant w (sg * 2 ^ w) E ea = (sg <<< 31) % 2 ^ 32 := by
  unfold generic_dequant
  have h1 : (sg * 2 ^ w) &&& (2 ^ w - 1) = 0 := by
    rw [Nat.and_pow_two_sub_one_eq_mod]; simp
  have h2 : (sg * 2 ^ w) >>> w = sg := by
    rw [Nat.shiftRight_eq_div_pow]
    exact Nat.mul_div_cancel _ (Nat.pow_pos (by norm_num))
  simp [h1, h2]

/-- The dequantizer on a code with sign `sg` and a non-zero magnitude `q` whose
leading one is `d` places below bit `w - 1`. -/
theorem generic_dequant_eq (w sg q d E : Nat) (ea : Bool) (hw : w ≤ 23)
    (hsg : sg ≤ 1) (hd : d < w) (hq1 : 2 ^ (w - 1 - d) ≤ q) (hq2 : q < 2 ^ (w - 1 - d + 1))
    (hE : d ≤ E) (hX : E - d + (if ea then 112 else 0) ≤ 255) :
    generic_dequant w (sg * 2 ^ w + q) E ea =
      sg * 2 ^ 31 + (E - d + (if ea then 112 else 0)) * 2 ^ 23
        + (q * 2 ^ (d + 1) % 2 ^ w) * 2 ^ (23 - w) := by
  have hqw : q < 2 ^ w :=
    lt_of_lt_of_le hq2 (Nat.pow_le_pow_right (by norm_num) (by omega))
  have hq0 : q ≠ 0 := by
    have : 0 < 2 ^ (w - 1 - d) := Nat.pow_pos (by norm_num)
    omega
  have hsign : (sg * 2 ^ w + q) >>> w = sg := by
    rw [Nat.shiftRight_eq_div_pow, Nat.add_comm, Nat.add_mul_div_right _ _ (Nat.pow_pos (by norm_num)),
      Nat.div_eq_of_lt hqw, Nat.zero_add]
  have hman : (sg * 2 ^ w + q) &&& (2 ^ w - 1) = q := by
    rw [Nat.and_pow_two_sub_one_eq_mod, Nat.add_comm, Nat.add_mul_mod_self_right,
      Nat.mod_eq_of_lt hqw]
  have hnorm := normalize_loop_spec (w - 1) (by omega) d 32 q 0 (by omega) (by omega) hq1 hq2
  have hqd : q * 2 ^ (d + 1) < 2 ^ 32 := by
    calc q * 2 ^ (d + 1) < 2 ^ (w - 1 - d + 1) * 2 ^ (d + 1) :=
          Nat.mul_lt_mul_of_pos_right hq2 (Nat.pow_pos (by norm_num))
      _ = 2 ^ (w + 1) := by rw [← pow_add]; congr 1; omega
      _ ≤ 2 ^ 32 := Nat.pow_le_pow_right (by norm_num) (by omega)
  have hshift : ((q * 2 ^ d) <<< 1) % 2 ^ 32 &&& (2 ^ w - 1) = q * 2 ^ (d + 1) % 2 ^ w := by
    rw [Nat.shiftLeft_eq, pow_one, Nat.mul_assoc, ← pow_succ, Nat.mod_eq_of_lt hqd,
      Nat.and_pow_two_sub_one_eq_mod]
  have hE32 : E < 2 ^ 32 := by
    have : (2 : Nat) ^ 32 = 4294967296 := by norm_num
    split at hX <;> omega
  have hexp : (E + 2 ^ 32 - (0 + d)) % 2 ^ 32 = E - d := by
    have : E + 2 ^ 32 - (0 + d) = (E - d) + 2 ^ 32 := by omega
    rw [this, Nat.add_mod_right]
    exact Nat.mod_eq_of_lt (by omega)
  have hreb : (if ea = true then (E - d + 2 ^ 32 - 15 + 127) % 2 ^ 32 else E - d)
      = E - d + (if ea then 112 else 0) := by
    cases ea with
    | false => simp
    | true =>
      simp only [if_true]
      have : E - d + 2 ^ 32 - 15 + 127 = (E - d + 112) + 2 ^ 32 := by
        have : (2 : Nat) ^ 32 = 4294967296 := by norm_num
        omega
      rw [this, Nat.add_mod_right]
      apply Nat.mod_eq_of_lt
      have : (2 : Nat) ^ 32 = 4294967296 := by norm_num
      simp only [if_true] at hX
      omega
  unfold generic_dequant
  simp only [hsign, hman, hnorm]
  have hb : (q == 0) = false := by rw [beq_eq_false_iff_ne]; exact hq0
  simp only [hb, Bool.false_eq_true, if_false, hshift, hexp, hreb]
  exact assemble_eq sg _ _ w hw hsg hX (Nat.mod_lt _ (Nat.pow_pos (by norm_num)))

/-! ## Round trip on the grid -/

/-- Arithmetic core of the round trip: a 24-bit mantissa `2^23 + m` divisible by
`2^(24 - W + d)` is quantized without rounding error, its leading one sits `d`
places below the top, and the dequantizer's shift restores `m`. -/
theorem grid_core (W d m : Nat) (hW : W = 1 ∨ W = 3 ∨ W = 7) (hm : m < 2 ^ 23)
    (hdvd : 2 ^ (24 - W + d) ∣ 2 ^ 23 + m) :
    d < W ∧
    2 ^ (W - 1 - d) ≤ min (((2 ^ 23 + m) / 2 ^ d + 2 ^ (23 - W)) / 2 ^ (24 - W)) (2 ^ W - 1) ∧
    min (((2 ^ 23 + m) / 2 ^ d + 2 ^ (23 - W)) / 2 ^ (24 - W)) (2 ^ W - 1) < 2 ^ (W - 1 - d + 1) ∧
    (min (((2 ^ 23 + m) / 2 ^ d + 2 ^ (23 - W)) / 2 ^ (24 - W)) (2 ^ W - 1) * 2 ^ (d + 1) % 2 ^ W)
      * 2 ^ (23 - W) = m := by
  have hd : d < W := by
    by_contra hcon
    have hle : 2 ^ (24 - W + d) ≤ 2 ^ 23 + m := Nat.le_of_dvd (by positivity) hdvd
    have hge : (2 : Nat) ^ 24 ≤ 2 ^ (24 - W + d) :=
      Nat.pow_le_pow_right (by norm_num) (by omega)
    have h24 : (2 : Nat) ^ 24 = 2 ^ 23 + 2 ^ 23 := by norm_num
    omega
  refine ⟨hd, ?_⟩
  rcases hW with rfl | rfl | rfl <;> interval_cases d <;> simp only [Nat.min_def] <;>
    norm_num at hm hdvd ⊢ <;> first | omega | (split_ifs <;> omega)

/-! ## Saturation under the Rebiased convention -/

theorem exp_field_ne_zero (x : Nat) (h : x / 2 ^ 23 % 256 ≠ 0) : x % 2 ^ 31 ≠ 0 := by
  norm_num at h ⊢
  omega

theorem getD_replicate_lt (x i n : Nat) (h : i < n) : (List.replicate n x).getD i 0 = x := by
  rw [List.getD_eq_getElem _ _ (by simpa using h)]
  simp

theorem get_max_exp_replicate (x : Nat) (ea : Bool) :
    get_max_exp (List.replicate 16 x) ea = resolved_exp (x / 2 ^ 23 % 256) ea := by
  obtain ⟨i, hi, h⟩ := get_max_exp_attained (List.replicate 16 x) ea
  rw [h, getD_replicate_lt x i 16 hi]

/-- On the max-magnitude path (mantissa all ones, exponent equal to the shared
exponent) RoundHalfUp overflows and is clamped to `2^W - 1`. -/
theorem reduce_all_ones (f : DataFormat) :
    reduce_mantissa f false (align_mantissa (2 ^ 23 + 0x007fffff) 31 31)
      = 2 ^ MANTISSA_BFP_WIDTH f - 1 := by
  rw [align_mantissa_eq, if_pos (le_refl _), reduce_mantissa_eq _ _ _ (by norm_num)]
  rcases width_cases f with h | h | h <;> rw [h] <;> decide

/-- The quantizer's magnitude for an element whose exponent is 0 after the rebias,
against a shared exponent `s`. -/
theorem reduce_exp_zero (f : DataFormat) (m s : Nat) (hm : m < 2 ^ 23) (hs : s ≤ 31) :
    reduce_mantissa f false (align_mantissa (2 ^ 23 + m) s 0) = 0 ↔ MANTISSA_BFP_WIDTH f < s := by
  have h24 : 2 ^ 23 + m < 2 ^ 24 := by
    have : (2 : Nat) ^ 24 = 2 ^ 23 + 2 ^ 23 := by norm_num
    omega
  rw [align_mantissa_eq, if_pos (Nat.zero_le _), Nat.sub_zero,
    reduce_mantissa_eq _ _ _ (lt_of_le_of_lt (Nat.div_le_self _ _) h24)]
  simp only [Bool.false_eq_true, if_false]
  rcases width_cases f with h | h | h <;> rw [h] <;> interval_cases s <;>
    simp only [Nat.min_def] <;> norm_num at hm ⊢ <;> first | omega | (split_ifs <;> omega) | (intro h0; split at h0 <;> omega)

/-! ## Word packing -/

theorem convert_u32_to_bfp_lt (f : DataFormat) (t : Bool) (x s : Nat) (ea : Bool) :
    convert_u32_to_bfp f t x s ea < 2 ^ (MANTISSA_BFP_WIDTH f + 1) := by
  by_cases hx : x % 2 ^ 31 = 0
  · rw [convert_u32_to_bfp_of_zero f t x s ea hx]
    exact Nat.pow_pos (by norm_num)
  · rw [convert_u32_to_bfp_eq f t x s ea hx]
    have hm := rebias_mantissa_lt (x / 2 ^ 23 % 256) (x % 2 ^ 23) ea (Nat.mod_lt _ (by norm_num))
    generalize rebias_exp_mantissa (x / 2 ^ 23 % 256) (x % 2 ^ 23) ea = em at hm ⊢
    have ha : align_mantissa (2 ^ 23 + em.2) s em.1 < 2 ^ 24 := by
      have := align_mantissa_le (2 ^ 23 + em.2) s em.1
      have h24 : (2 : Nat) ^ 24 = 2 ^ 23 + 2 ^ 23 := by norm_num
      omega
    have hr := reduce_mantissa_le f t _ ha
    generalize reduce_mantissa f t (align_mantissa (2 ^ 23 + em.2) s em.1) = q at hr ⊢
    have hpos : 0 < 2 ^ MANTISSA_BFP_WIDTH f := Nat.pow_pos (by norm_num)
    have h2 : 2 ^ (MANTISSA_BFP_WIDTH f + 1) = 2 * 2 ^ MANTISSA_BFP_WIDTH f := by
      rw [pow_succ, Nat.mul_comm]
    have hb : (if q = 0 then 0 else x / 2 ^ 31 % 2) ≤ 1 := by
      have := Nat.mod_lt (x / 2 ^ 31) (show 2 > 0 by norm_num)
      split <;> omega
    have := Nat.mul_le_mul_right (2 ^ MANTISSA_BFP_WIDTH f) hb
    omega

theorem nums_cases (f : DataFormat) :
    (nums_in_dword f = 16 ∧ MANTISSA_BFP_WIDTH f = 1) ∨
    (nums_in_dword f = 8 ∧ MANTISSA_BFP_WIDTH f = 3) ∨
    (nums_in_dword f = 4 ∧ MANTISSA_BFP_WIDTH f = 7) := by
  unfold nums_in_dword MANTISSA_BFP_WIDTH
  split
  · exact Or.inl ⟨rfl, rfl⟩
  · split
    · exact Or.inr (Or.inl ⟨rfl, rfl⟩)
    · exact Or.inr (Or.inr ⟨rfl, rfl⟩)

theorem le_value_lt (b : Nat) (cs : List Nat) : le_value b cs < 2 ^ (b * cs.length) := by
  induction cs with
  | nil => simp [le_value]
  | cons c cs ih =>
    have hc : c % 2 ^ b < 2 ^ b := Nat.mod_lt _ (Nat.pow_pos (by norm_num))
    have hp : 2 ^ (b * (c :: cs).length) = 2 ^ b * 2 ^ (b * cs.length) := by
      rw [← pow_add]; congr 1; simp [Nat.mul_succ, Nat.add_comm]
    rw [hp]
    show c % 2 ^ b + 2 ^ b * le_value b cs < 2 ^ b * 2 ^ (b * cs.length)
    have h1 : 2 ^ b * (le_value b cs + 1) ≤ 2 ^ b * 2 ^ (b * cs.length) :=
      Nat.mul_le_mul_left _ ih
    rw [Nat.mul_add, Nat.mul_one] at h1
    omega

/-- The shift-and-or loop of `create_packed_bfp_packed_as_u32`, run over the codes
from last to first, builds the little-endian slot value. -/
theorem pack_fold_eq (b : Nat) (cs : List Nat) (h : b * cs.length ≤ 32) :
    cs.reverse.foldl (fun tmp c => ((tmp <<< b) % 2 ^ 32) ||| (c &&& ((1 <<< b) - 1))) 0
      = le_value b cs := by
  induction cs with
  | nil => simp [le_value]
  | cons c cs ih =>
    have hlen : b * cs.length + b ≤ 32 := by
      simpa [Nat.mul_succ] using h
    rw [List.reverse_cons, List.foldl_append, ih (by omega)]
    simp only [List.foldl_cons, List.foldl_nil]
    have hc : c % 2 ^ b < 2 ^ b := Nat.mod_lt _ (Nat.pow_pos (by norm_num))
    have hv := le_value_lt b cs
    have hlt : le_value b cs * 2 ^ b < 2 ^ 32 := by
      calc le_value b cs * 2 ^ b < 2 ^ (b * cs.length) * 2 ^ b :=
            Nat.mul_lt_mul_of_pos_right hv (Nat.pow_pos (by norm_num))
        _ = 2 ^ (b * cs.length + b) := by rw [← pow_add]
        _ ≤ 2 ^ 32 := Nat.pow_le_pow_right (by norm_num) hlen
    rw [Nat.shiftLeft_eq, Nat.mod_eq_of_lt hlt, Nat.shiftLeft_eq, one_mul,
      Nat.and_pow_two_sub_one_eq_mod, Nat.mul_comm, ← Nat.mul_add_lt_is_or hc]
    show 2 ^ b * le_value b cs + c % 2 ^ b = c % 2 ^ b + 2 ^ b * le_value b cs
    omega

theorem le_value_slot (b : Nat) : ∀ (cs : List Nat) (s : Nat), s < cs.length →
    le_value b cs / 2 ^ (b * s) % 2 ^ b = cs.getD s 0 % 2 ^ b := by
  intro cs
  induction cs with
  | nil => intro s hs; simp at hs
  | cons c cs ih =>
    intro s hs
    have hpos : 0 < 2 ^ b := Nat.pow_pos (by norm_num)
    have hc : c % 2 ^ b < 2 ^ b := Nat.mod_lt _ hpos
    cases s with
    | zero =>
      show (c % 2 ^ b + 2 ^ b * le_value b cs) / 2 ^ (b * 0) % 2 ^ b = c % 2 ^ b
      rw [Nat.mul_zero, pow_zero, Nat.div_one, Nat.add_mul_mod_self_left, Nat.mod_mod]
    | succ s =>
      have hs' : s < cs.length := by simpa using hs
      show (c % 2 ^ b + 2 ^ b * le_value b cs) / 2 ^ (b * (s + 1)) % 2 ^ b = cs.getD s 0 % 2 ^ b
      rw [← ih s hs', Nat.mul_succ, Nat.add_comm (b * s) b, pow_add, ← Nat.div_div_eq_div_mul,
        Nat.add_mul_div_left _ _ hpos, Nat.div_eq_of_lt hc, Nat.zero_add]

/-- The packed word is the little-endian slot value of the codes of the first
`nums_in_dword` elements of `u32_vec`. -/
theorem create_packed_eq (f : DataFormat) (v : List Nat) (e : Nat) (ea : Bool) :
    create_packed_bfp_packed_as_u32 f v e ea =
      le_value (32 / nums_in_dword f)
        ((List.range (nums_in_dword f)).map
          (fun i => convert_u32_to_bfp f false (v.getD i 0) e ea)) := by
  unfold create_packed_bfp_packed_as_u32
  rw [← pack_fold_eq, ← List.map_reverse, List.foldl_map]
  rcases nums_cases f with ⟨h, _⟩ | ⟨h, _⟩ | ⟨h, _⟩ <;> rw [h] <;> simp

/-- Slot `s` of a packed word, extracted by shift and mask, is the code of element
`s`. -/
theorem create_packed_slot (f : DataFormat) (v : List Nat) (e : Nat) (ea : Bool) (s : Nat)
    (hs : s < nums_in_dword f) :
    (create_packed_bfp_packed_as_u32 f v e ea >>> (s * (32 / nums_in_dword f)))
        % 2 ^ (32 / nums_in_dword f)
      = convert_u32_to_bfp f false (v.getD s 0) e ea := by
  rw [create_packed_eq, Nat.shiftRight_eq_div_pow, Nat.mul_comm s, le_value_slot _ _ s (by simpa using hs)]
  have hget : ((List.range (nums_in_dword f)).map
      (fun i => convert_u32_to_bfp f false (v.getD i 0) e ea)).getD s 0
      = convert_u32_to_bfp f false (v.getD s 0) e ea := by
    rw [List.getD_eq_getElem _ _ (by simpa using hs)]
    simp
  rw [hget]
  apply Nat.mod_eq_of_lt
  have hr := convert_u32_to_bfp_lt f false (v.getD s 0) e ea
  rcases nums_cases f with ⟨h, hw⟩ | ⟨h, hw⟩ | ⟨h, hw⟩ <;> rw [h] <;> rw [hw] at hr <;>
    norm_num at hr ⊢ <;> exact hr

/-! ## Rows, faces and tiles -/

theorem getElem?_eq_some_getD (vec : List Nat) (i : Nat) (h : i < vec.length) :
    vec[i]? = some (vec.getD i 0) := by
  rw [List.getElem?_eq_getElem h, List.getD_eq_getElem _ _ h]

/-- Gathering a row through `at` at the indices `h j` (row-major mapping). -/
theorem populate_fold_indexed (vec : List Nat) (h : Nat → Nat) :
    ∀ (js acc : List Nat) (idx : Nat), (∀ j ∈ js, h j < vec.length) →
    js.foldlM (fun (acc : List Nat × Nat) j =>
        vec[h j]?.bind fun float_num => some (acc.1 ++ [float_num], acc.2)) (acc, idx)
      = some (acc ++ js.map (fun j => vec.getD (h j) 0), idx) := by
  intro js
  induction js with
  | nil => intro acc idx _; simp
  | cons j js ih =>
    intro acc idx hin
    rw [List.foldlM_cons, getElem?_eq_some_getD vec (h j) (hin j (List.mem_cons_self _ _))]
    simp only [Option.some_bind, Option.bind_eq_bind]
    rw [ih _ _ (fun j' hj' => hin j' (List.mem_cons_of_mem _ hj'))]
    simp

/-- Gathering a row through `at` with the running index (sequential mapping). -/
theorem populate_fold_running (vec : List Nat) :
    ∀ (js acc : List Nat) (idx : Nat), idx + js.length ≤ vec.length →
    js.foldlM (fun (acc : List Nat × Nat) (_ : Nat) =>
        vec[acc.2]?.bind fun float_num => some (acc.1 ++ [float_num], acc.2 + 1)) (acc, idx)
      = some (acc ++ (List.range js.length).map (fun k => vec.getD (idx + k) 0),
              idx + js.length) := by
  intro js
  induction js with
  | nil => intro acc idx _; simp
  | cons j js ih =>
    intro acc idx hin
    have hlen : idx + 1 + js.length ≤ vec.length := by
      simp only [List.length_cons] at hin; omega
    rw [List.foldlM_cons]
    rw [getElem?_eq_some_getD vec idx (by omega)]
    simp only [Option.some_bind, Option.bind_eq_bind]
    rw [ih _ _ hlen]
    simp only [List.length_cons, List.range_succ_eq_map, List.map_cons, List.map_map,
      List.append_assoc, List.singleton_append, Nat.add_zero]
    congr 2
    · congr 2
      apply List.map_congr_left
      intro k _
      simp only [Function.comp]
      congr 1
      omega
    · omega

theorem populate_row_eq (vec : List Nat) (rm : Bool) (t r idx : Nat) (hr : r < 64)
    (hlen : 1024 * (t + 1) ≤ vec.length) (hidx : rm = false → idx = 1024 * t + 16 * r) :
    populate_row vec rm t (r / 32) (r / 16 % 2) (r % 16) idx
      = some (tile_row vec rm t r, if rm then idx else idx + 16) := by
  unfold populate_row tile_row tile_index_of FACE_WIDTH FACE_HEIGHT TILE_WIDTH TILE_HEIGHT
  simp only [Option.pure_def, Option.bind_eq_bind]
  cases rm with
  | true =>
    simp only [if_true]
    have h := populate_fold_indexed vec
      (fun j => (r / 32 * 16 + r % 16) * 32 + (r / 16 % 2 * 16 + j) + 32 * 32 * t)
      (List.range 16) [] idx (by
        intro j hj
        have hj' := List.mem_range.mp hj
        have : r / 32 * 16 + r % 16 < 32 := by omega
        have : r / 16 % 2 * 16 + j < 32 := by omega
        show (r / 32 * 16 + r % 16) * 32 + (r / 16 % 2 * 16 + j) + 32 * 32 * t < vec.length
        omega)
    simpa using h
  | false =>
    simp only [Bool.false_eq_true, if_false]
    have h := populate_fold_running vec (List.range 16) [] idx (by
      have := hidx rfl
      simp only [List.length_range]
      omega)
    rw [h, hidx rfl]
    simp only [List.length_range, List.nil_append]

theorem range16 : List.range 16 = [0, 1, 2, 3, 4, 5, 6, 7, 8, 9, 10, 11, 12, 13, 14, 15] := by
  decide

/-- Feeding the 16 elements of a row to the data buffer, starting from an empty
buffer, appends the row's words and leaves the buffer empty. -/
theorem pack_row_eq (f : DataFormat) (exp : Nat) (ea : Bool) (g : Nat → Nat) (pd : List Nat) :
    ((List.range 16).map g).foldl (pack_datum f exp ea) ([], pd)
      = ([], pd ++ row_words f exp ea ((List.range 16).map g)) := by
  unfold row_words
  rcases nums_cases f with ⟨h, _⟩ | ⟨h, _⟩ | ⟨h, _⟩ <;>
    simp [pack_datum, h, range16, List.range_succ]

theorem process_row_eq (f : DataFormat) (vec : List Nat) (rm ea : Bool) (t r : Nat)
    (st : PackState) (hr : r < 64) (hlen : 1024 * (t + 1) ≤ vec.length)
    (hdata : st.data = [])
    (hidx : rm = false → st.fp32_element_index = 1024 * t + 16 * r) :
    process_row f vec rm ea t (r / 32) (r / 16 % 2) st (r % 16)
      = some
        { packed_result :=
            (push_exponent (st.packed_result, st.exponents)
              (get_max_exp (tile_row vec rm t r) ea)).1,
          exponents :=
            (push_exponent (st.packed_result, st.exponents)
              (get_max_exp (tile_row vec rm t r) ea)).2,
          data := [],
          packed_data := st.packed_data ++
            row_words f (get_max_exp (tile_row vec rm t r) ea) ea (tile_row vec rm t r),
          fp32_element_index :=
            if rm then st.fp32_element_index else st.fp32_element_index + 16 } := by
  unfold process_row
  rw [populate_row_eq vec rm t r st.fp32_element_index hr hlen hidx]
  simp only [Option.pure_def, Option.bind_eq_bind, Option.some_bind, hdata]
  have hrow : tile_row vec rm t r = (List.range 16).map
      (fun j => vec.getD (tile_index_of rm t r j) 0) := rfl
  rw [hrow, pack_row_eq]

/-- The three nested loops over `tr`, `tc`, `i` visit the 64 rows of a tile in the
order of the row number `r = 32 * tr + 16 * tc + i`. -/
theorem nested_rows_eq (g : Nat → Nat → PackState → Nat → Option PackState) (st : PackState) :
    (List.range (TILE_HEIGHT / FACE_HEIGHT)).foldlM (fun st tr =>
      (List.range (TILE_WIDTH / FACE_WIDTH)).foldlM (fun st tc =>
        (List.range FACE_HEIGHT).foldlM (g tr tc) st) st) st
    = (List.range 64).foldlM (fun st r => g (r / 32) (r / 16 % 2) st (r % 16)) st := by
  have h64 : List.range 64 = List.range 16 ++ (List.range 16).map (16 + ·)
      ++ (List.range 16).map (32 + ·) ++ (List.range 16).map (48 + ·) := by decide
  have h2 : List.range (TILE_HEIGHT / FACE_HEIGHT) = [0, 1] := by decide
  have h2' : List.range (TILE_WIDTH / FACE_WIDTH) = [0, 1] := by decide
  have hface : ∀ (a tr tc : Nat) (s : PackState), (∀ i, i < 16 → (a + i) / 32 = tr) →
      (∀ i, i < 16 → (a + i) / 16 % 2 = tc) → (∀ i, i < 16 → (a + i) % 16 = i) →
      ((List.range 16).map (a + ·)).foldlM
          (fun st r => g (r / 32) (r / 16 % 2) st (r % 16)) s
        = (List.range 16).foldlM (g tr tc) s := by
    intro a tr tc s h1 h2 h3
    rw [List.foldlM_map]
    simp only [range16, List.foldlM_cons, List.foldlM_nil]
    simp only [h1 _ (by norm_num : (0:Nat) < 16), h2 _ (by norm_num : (0:Nat) < 16),
      h3 _ (by norm_num : (0:Nat) < 16),
      h1 1 (by norm_num), h2 1 (by norm_num), h3 1 (by norm_num),
      h1 2 (by norm_num), h2 2 (by norm_num), h3 2 (by norm_num),
      h1 3 (by norm_num), h2 3 (by norm_num), h3 3 (by norm_num),
      h1 4 (by norm_num), h2 4 (by norm_num), h3 4 (by norm_num),
      h1 5 (by norm_num), h2 5 (by norm_num), h3 5 (by norm_num),
      h1 6 (by norm_num), h2 6 (by norm_num), h3 6 (by norm_num),
      h1 7 (by norm_num), h2 7 (by norm_num), h3 7 (by norm_num),
      h1 8 (by norm_num), h2 8 (by norm_num), h3 8 (by norm_num),
      h1 9 (by norm_num), h2 9 (by norm_num), h3 9 (by norm_num),
      h1 10 (by norm_num), h2 10 (by norm_num), h3 10 (by norm_num),
      h1 11 (by norm_num), h2 11 (by norm_num), h3 11 (by norm_num),
      h1 12 (by norm_num), h2 12 (by norm_num), h3 12 (by norm_num),
      h1 13 (by norm_num), h2 13 (by norm_num), h3 13 (by norm_num),
      h1 14 (by norm_num), h2 14 (by norm_num), h3 14 (by norm_num),
      h1 15 (by norm_num), h2 15 (by norm_num), h3 15 (by norm_num)]
  have hface0 := fun s => hface 0 0 0 s (by intro i hi; omega) (by intro i hi; omega)
    (by intro i hi; omega)
  have hface1 := fun s => hface 16 0 1 s (by intro i hi; omega) (by intro i hi; omega)
    (by intro i hi; omega)
  have hface2 := fun s => hface 32 1 0 s (by intro i hi; omega) (by intro i hi; omega)
    (by intro i hi; omega)
  have hface3 := fun s => hface 48 1 1 s (by intro i hi; omega) (by intro i hi; omega)
    (by intro i hi; omega)
  have hid : (List.range 16).map (0 + ·) = List.range 16 := by simp
  rw [hid] at hface0
  rw [h64, h2, h2']
  simp only [List.foldlM_append, List.foldlM_cons, List.foldlM_nil, hface0, hface1, hface2,
    hface3, show FACE_HEIGHT = 16 from rfl, bind_assoc, pure_bind, bind_pure]

/-- The state after the first `n` rows of tile `t`. -/
theorem rows_fold (f : DataFormat) (vec : List Nat) (rm ea : Bool) (t : Nat) (st0 : PackState)
    (hlen : 1024 * (t + 1) ≤ vec.length) (hdata : st0.data = [])
    (hidx : rm = false → st0.fp32_element_index = 1024 * t) :
    ∀ n, n ≤ 64 →
    (List.range n).foldlM
        (fun st r => process_row f vec rm ea t (r / 32) (r / 16 % 2) st (r % 16)) st0
      = some
        { packed_result :=
            (((List.range n).map (fun r => get_max_exp (tile_row vec rm t r) ea)).foldl
              push_exponent (st0.packed_result, st0.exponents)).1,
          exponents :=
            (((List.range n).map (fun r => get_max_exp (tile_row vec rm t r) ea)).foldl
              push_exponent (st0.packed_result, st0.exponents)).2,
          data := [],
          packed_data := st0.packed_data ++ (List.range n).flatMap (fun r =>
            row_words f (get_max_exp (tile_row vec rm t r) ea) ea (tile_row vec rm t r)),
          fp32_element_index :=
            if rm then st0.fp32_element_index else st0.fp32_element_index + 16 * n } := by
  intro n
  induction n with
  | zero =>
    intro _
    cases st0
    simp only at hdata
    subst hdata
    simp
  | succ n ih =>
    intro hn
    rw [List.range_succ, List.foldlM_append, ih (by omega)]
    simp only [Option.bind_eq_bind, Option.some_bind, List.foldlM_cons, List.foldlM_nil]
    rw [process_row_eq f vec rm ea t n _ (by omega) hlen rfl (by
      intro hrm
      simp only [hrm, Bool.false_eq_true, if_false, hidx hrm])]
    simp only [Option.some_bind, Option.pure_def, List.map_append, List.map_cons, List.map_nil,
      List.foldl_append, List.foldl_cons, List.foldl_nil, List.flatMap_append,
      List.flatMap_cons, List.flatMap_nil, List.append_nil, List.append_assoc]
    congr 2
    cases rm
    · simp; omega
    · simp

/-- Pushing `4 * n` row exponents from an empty buffer emits `n` words of four
consecutive exponents each and leaves the buffer empty. -/
theorem push_exponent_fold (E : Nat → Nat) (pr : List Nat) : ∀ n,
    ((List.range (4 * n)).map E).foldl push_exponent (pr, [])
      = (pr ++ (List.range n).map (fun k =>
          get_exp_dword [E (4 * k), E (4 * k + 1), E (4 * k + 2), E (4 * k + 3)]), []) := by
  intro n
  induction n with
  | zero => simp
  | succ n ih =>
    have h4 : 4 * (n + 1) = 4 * n + 1 + 1 + 1 + 1 := by ring
    rw [h4]
    simp only [List.range_succ, List.map_append, List.map_cons, List.map_nil, List.foldl_append,
      List.foldl_cons, List.foldl_nil, ih, List.append_assoc]
    simp [push_exponent]

theorem push_exponent_fold_tile (E : Nat → Nat) (pr : List Nat) :
    ((List.range 64).map E).foldl push_exponent (pr, [])
      = (pr ++ (List.range 16).map (fun k =>
          get_exp_dword [E (4 * k), E (4 * k + 1), E (4 * k + 2), E (4 * k + 3)]), []) :=
  push_exponent_fold E pr 16

/-- One pass of the tile loop appends the tile's 16 exponent words and then its data
words, and hands an empty exponent buffer and data buffer to the next tile. -/
theorem process_tile_eq (f : DataFormat) (vec : List Nat) (rm ea : Bool) (t : Nat)
    (st : PackState) (hlen : 1024 * (t + 1) ≤ vec.length) (hexp : st.exponents = [])
    (hdata : st.data = []) (hidx : rm = false → st.fp32_element_index = 1024 * t) :
    process_tile f vec rm ea st t
      = some
        { packed_result := st.packed_result ++ tile_words f vec rm ea t,
          exponents := [],
          data := [],
          packed_data := tile_data_words f vec rm ea t,
          fp32_element_index :=
            if rm then st.fp32_element_index else st.fp32_element_index + 1024 } := by
  unfold process_tile
  simp only [Option.pure_def, Option.bind_eq_bind]
  rw [nested_rows_eq (fun tr tc st i => process_row f vec rm ea t tr tc st i)]
  rw [rows_fold f vec rm ea t
    { packed_result := st.packed_result, exponents := st.exponents, data := st.data,
      packed_data := [], fp32_element_index := st.fp32_element_index }
    hlen hdata hidx 64 (le_refl _)]
  rw [Option.some_bind]
  simp only [hexp]
  rw [push_exponent_fold_tile]
  unfold tile_words tile_exp_words tile_data_words
  rw [List.nil_append, List.append_assoc]

/-- The state after the first `n` tiles. -/
theorem tiles_fold (f : DataFormat) (vec : List Nat) (rm ea : Bool) :
    ∀ n, 1024 * n ≤ vec.length →
    ∃ pd, (List.range n).foldlM (process_tile f vec rm ea)
        { packed_result := [], exponents := [], data := [], packed_data := [],
          fp32_element_index := 0 }
      = some
        { packed_result := (List.range n).flatMap (tile_words f vec rm ea),
          exponents := [],
          data := [],
          packed_data := pd,
          fp32_element_index := if rm then 0 else 1024 * n } := by
  intro n
  induction n with
  | zero => intro _; exact ⟨[], by simp⟩
  | succ n ih =>
    intro hn
    obtain ⟨pd, hpd⟩ := ih (by omega)
    refine ⟨tile_data_words f vec rm ea n, ?_⟩
    rw [List.range_succ, List.foldlM_append, hpd]
    simp only [Option.bind_eq_bind, Option.some_bind, List.foldlM_cons, List.foldlM_nil]
    rw [process_tile_eq f vec rm ea n _ (by omega) rfl rfl (by
      intro hrm
      simp only [hrm, Bool.false_eq_true, if_false])]
    simp only [Option.some_bind, Option.pure_def, List.flatMap_append, List.flatMap_cons,
      List.flatMap_nil, List.append_nil]
    congr 2
    cases rm
    · simp; omega
    · simp

/-- The tile packer never fails and returns, tile after tile, the 16 exponent words
followed by the data words of the tile. -/
theorem pack_tiles_eq (f : DataFormat) (vec : List Nat) (rm ea : Bool) :
    pack_fp32_vec_as_bfp_tiles f vec rm ea
      = some ((List.range (vec.length / 1024)).flatMap (tile_words f vec rm ea)) := by
  unfold pack_fp32_vec_as_bfp_tiles
  obtain ⟨pd, hpd⟩ := tiles_fold f vec rm ea (vec.length / 1024)
    (Nat.mul_div_le vec.length 1024)
  simp only [show TILE_HEIGHT * TILE_WIDTH = 1024 from rfl, hpd, Option.pure_def,
    Option.bind_eq_bind, Option.some_bind]

/-! ## Exponent words -/

theorem and_ff (x : Nat) : x &&& 0xff = x % 256 :=
  Nat.and_pow_two_sub_one_eq_mod x 8

theorem or_shifted_eq_add (a b i : Nat) (ha : a < 2 ^ i) : a ||| (b * 2 ^ i) = a + b * 2 ^ i := by
  rw [Nat.or_comm, Nat.mul_comm, ← Nat.mul_add_lt_is_or ha, Nat.add_comm]

/-- The exponent word as a sum: byte `i` is `vec[i]` reduced to 8 bits. -/
theorem get_exp_dword_eq (vec : List Nat) :
    get_exp_dword vec = vec.getD 0 0 % 256 + vec.getD 1 0 % 256 * 2 ^ 8
      + vec.getD 2 0 % 256 * 2 ^ 16 + vec.getD 3 0 % 256 * 2 ^ 24 := by
  unfold get_exp_dword
  have h4 : List.range 4 = [0, 1, 2, 3] := by decide
  simp only [h4, List.foldl_cons, List.foldl_nil, and_ff, Nat.shiftLeft_eq]
  have h0 := Nat.mod_lt (vec.getD 0 0) (show 256 > 0 by norm_num)
  have h1 := Nat.mod_lt (vec.getD 1 0) (show 256 > 0 by norm_num)
  have h2 := Nat.mod_lt (vec.getD 2 0) (show 256 > 0 by norm_num)
  have h3 := Nat.mod_lt (vec.getD 3 0) (show 256 > 0 by norm_num)
  generalize vec.getD 0 0 % 256 = e0 at h0 ⊢
  generalize vec.getD 1 0 % 256 = e1 at h1 ⊢
  generalize vec.getD 2 0 % 256 = e2 at h2 ⊢
  generalize vec.getD 3 0 % 256 = e3 at h3 ⊢
  have m0 : e0 * 2 ^ (0 * 8) % 2 ^ 32 = e0 := by
    norm_num; omega
  have m1 : e1 * 2 ^ (1 * 8) % 2 ^ 32 = e1 * 2 ^ 8 := by
    norm_num; omega
  have m2 : e2 * 2 ^ (2 * 8) % 2 ^ 32 = e2 * 2 ^ 16 := by
    norm_num; omega
  have m3 : e3 * 2 ^ (3 * 8) % 2 ^ 32 = e3 * 2 ^ 24 := by
    norm_num; omega
  rw [m0, m1, m2, m3, Nat.zero_or,
    or_shifted_eq_add e0 e1 8 (by norm_num; omega),
    or_shifted_eq_add _ e2 16 (by norm_num; omega),
    or_shifted_eq_add _ e3 24 (by norm_num; omega)]

/-- Byte extraction: `get_byte` is division and remainder, for every index below 4. -/
theorem get_byte_eq (word index : Nat) (hi : index < 4) :
    get_byte word index = word / 2 ^ (8 * index) % 256 := by
  unfold get_byte
  have hmask : (0xff <<< (8 * index)) % 2 ^ 32 = 0xff <<< (8 * index) := by
    apply Nat.mod_eq_of_lt
    interval_cases index <;> decide
  simp only [hmask]
  apply Nat.eq_of_testBit_eq
  intro i
  rw [Nat.testBit_shiftRight, Nat.testBit_and, Nat.testBit_shiftLeft,
    show (256 : Nat) = 2 ^ 8 from rfl, Nat.testBit_mod_two_pow, ← Nat.shiftRight_eq_div_pow,
    Nat.testBit_shiftRight]
  have hsub : 8 * index + i - 8 * index = i := by omega
  have hge : 8 * index + i ≥ 8 * index := by omega
  rw [hsub]
  by_cases h : i < 8
  · have hb : Nat.testBit 0xff i = true := by
      interval_cases i <;> decide
    simp [h, hb, hge]
  · have hb : Nat.testBit 0xff i = false := by
      apply Nat.testBit_lt_two_pow
      calc (0xff : Nat) < 2 ^ 8 := by norm_num
        _ ≤ 2 ^ i := Nat.pow_le_pow_right (by norm_num) (by omega)
    simp [h, hb]

theorem get_byte_get_exp_dword (e0 e1 e2 e3 b : Nat) (h0 : e0 ≤ 255) (h1 : e1 ≤ 255)
    (h2 : e2 ≤ 255) (h3 : e3 ≤ 255) (hb : b < 4) :
    get_byte (get_exp_dword [e0, e1, e2, e3]) b = [e0, e1, e2, e3].getD b 0 := by
  rw [get_byte_eq _ _ hb, get_exp_dword_eq]
  simp only [List.getD_cons_zero, List.getD_cons_succ]
  interval_cases b <;> norm_num <;> omega

/-! ## Indexing the output -/

theorem flatMap_range_length (g : Nat → List Nat) (L : Nat) (hL : ∀ r, (g r).length = L) :
    ∀ n, ((List.range n).flatMap g).length = n * L := by
  intro n
  induction n with
  | zero => simp
  | succ n ih =>
    rw [List.range_succ, List.flatMap_append, List.length_append, ih]
    simp [hL, Nat.succ_mul]

theorem flatMap_range_getD (g : Nat → List Nat) (L : Nat) (hL : ∀ r, (g r).length = L) :
    ∀ n r w, r < n → w < L → ((List.range n).flatMap g).getD (r * L + w) 0 = (g r).getD w 0 := by
  intro n
  induction n with
  | zero => intro r w hr; omega
  | succ n ih =>
    intro r w hr hw
    rw [List.range_succ, List.flatMap_append]
    have hlen := flatMap_range_length g L hL n
    by_cases hrn : r < n
    · have hlt : r * L + w < ((List.range n).flatMap g).length := by
        rw [hlen]
        calc r * L + w < r * L + L := by omega
          _ = (r + 1) * L := by ring
          _ ≤ n * L := Nat.mul_le_mul_right _ hrn
      rw [List.getD_append _ _ _ _ hlt]
      exact ih r w hrn hw
    · have hrn' : r = n := by omega
      subst hrn'
      rw [List.getD_append_right _ _ _ _ (by rw [hlen]; omega), hlen]
      simp

theorem row_words_length (f : DataFormat) (e : Nat) (ea : Bool) (row : List Nat) :
    (row_words f e ea row).length = 16 / nums_in_dword f := by
  simp [row_words]

theorem getD_take_drop (row : List Nat) (a k s : Nat) (hs : s < k) :
    ((row.drop a).take k).getD s 0 = row.getD (a + s) 0 := by
  simp only [List.getD_eq_getElem?_getD, List.getElem?_take_of_lt hs, List.getElem?_drop]

/-- Slot `s` of word `w` of a row's data words is the code of element `w * K + s`. -/
theorem row_words_slot (f : DataFormat) (e : Nat) (ea : Bool) (row : List Nat) (w s : Nat)
    (hw : w < 16 / nums_in_dword f) (hs : s < nums_in_dword f) :
    ((row_words f e ea row).getD w 0 >>> (s * (32 / nums_in_dword f)))
        % 2 ^ (32 / nums_in_dword f)
      = convert_u32_to_bfp f false (row.getD (w * nums_in_dword f + s) 0) e ea := by
  have hget : (row_words f e ea row).getD w 0 = create_packed_bfp_packed_as_u32 f
      ((row.drop (w * nums_in_dword f)).take (nums_in_dword f)) e ea := by
    unfold row_words
    rw [List.getD_eq_getElem _ _ (by simpa using hw)]
    simp
  rw [hget, create_packed_slot f _ e ea s hs, getD_take_drop _ _ _ _ hs]

theorem tile_row_length (vec : List Nat) (rm : Bool) (t r : Nat) :
    (tile_row vec rm t r).length = 16 := by
  simp [tile_row]

theorem tile_row_getD (vec : List Nat) (rm : Bool) (t r j : Nat) (hj : j < 16) :
    (tile_row vec rm t r).getD j 0 = vec.getD (tile_index_of rm t r j) 0 := by
  unfold tile_row
  rw [List.getD_eq_getElem _ _ (by simpa using hj)]
  simp

theorem tile_exp_words_length (vec : List Nat) (rm ea : Bool) (t : Nat) :
    (tile_exp_words vec rm ea t).length = 16 := by
  simp [tile_exp_words]

theorem tile_data_words_length (f : DataFormat) (vec : List Nat) (rm ea : Bool) (t : Nat) :
    (tile_data_words f vec rm ea t).length = 64 * (16 / nums_in_dword f) := by
  unfold tile_data_words
  exact flatMap_range_length _ _ (fun r => row_words_length f _ ea _) 64

theorem pack_single_tile (f : DataFormat) (vec : List Nat) (rm ea : Bool)
    (hlen : vec.length = 1024) :
    pack_fp32_vec_as_bfp_tiles f vec rm ea = some (tile_words f vec rm ea 0) := by
  rw [pack_tiles_eq, hlen]
  simp [show List.range (1024 / 1024) = [0] from by decide]

/-! ## Tiles are independent -/

theorem tile_index_of_bounds (rm : Bool) (t r j : Nat) (hr : r < 64) (hj : j < 16) :
    1024 * t ≤ tile_index_of rm t r j ∧ tile_index_of rm t r j < 1024 * (t + 1) := by
  unfold tile_index_of
  cases rm with
  | true =>
    simp only [if_true]
    have : r / 32 * 16 + r % 16 < 32 := by omega
    have : r / 16 % 2 * 16 + j < 32 := by omega
    omega
  | false =>
    simp only [Bool.false_eq_true, if_false]
    omega

theorem tile_index_of_add (rm : Bool) (m t r j : Nat) :
    tile_index_of rm (m + t) r j = 1024 * m + tile_index_of rm t r j := by
  unfold tile_index_of
  cases rm with
  | true => simp only [if_true]; ring
  | false => simp only [Bool.false_eq_true, if_false]; ring

/-- The words of a tile depend only on the 1024 elements of that tile. -/
theorem tile_words_congr (f : DataFormat) (v1 v2 : List Nat) (rm ea : Bool) (t1 t2 : Nat)
    (h : ∀ r j, r < 64 → j < 16 →
      v1.getD (tile_index_of rm t1 r j) 0 = v2.getD (tile_index_of rm t2 r j) 0) :
    tile_words f v1 rm ea t1 = tile_words f v2 rm ea t2 := by
  have hrow : ∀ r, r < 64 → tile_row v1 rm t1 r = tile_row v2 rm t2 r := by
    intro r hr
    unfold tile_row
    apply List.map_congr_left
    intro j hj
    exact h r j hr (List.mem_range.mp hj)
  unfold tile_words tile_exp_words tile_data_words
  congr 1
  · apply List.map_congr_left
    intro k hk
    have hk' := List.mem_range.mp hk
    rw [hrow (4 * k) (by omega), hrow (4 * k + 1) (by omega), hrow (4 * k + 2) (by omega),
      hrow (4 * k + 3) (by omega)]
  · apply List.flatMap_congr
    intro r hr
    rw [hrow r (List.mem_range.mp hr)]

theorem tiles_append (f : DataFormat) (a b : List Nat) (rm ea : Bool) (m n : Nat)
    (ha : a.length = 1024 * m) (hb : b.length = 1024 * n) :
    (List.range ((a ++ b).length / 1024)).flatMap (tile_words f (a ++ b) rm ea)
      = (List.range (a.length / 1024)).flatMap (tile_words f a rm ea)
        ++ (List.range (b.length / 1024)).flatMap (tile_words f b rm ea) := by
  have h1 : (a ++ b).length / 1024 = m + n := by
    rw [List.length_append, ha, hb]; omega
  have h2 : a.length / 1024 = m := by rw [ha]; omega
  have h3 : b.length / 1024 = n := by rw [hb]; omega
  rw [h1, h2, h3, List.range_add, List.flatMap_append, List.flatMap_map]
  congr 1
  · apply List.flatMap_congr
    intro t ht
    have ht' := List.mem_range.mp ht
    apply tile_words_congr
    intro r j hr hj
    have hbd := tile_index_of_bounds rm t r j hr hj
    exact List.getD_append _ _ _ _ (by omega)
  · apply List.flatMap_congr
    intro t _
    apply tile_words_congr
    intro r j hr hj
    rw [tile_index_of_add, List.getD_append_right _ _ _ _ (by omega), ha, Nat.add_sub_cancel_left]

/-! ## A tile of identical rows -/

theorem getD_flatten_replicate (p : List Nat) (hp : p.length = 16) :
    ∀ n i, i < n * 16 → (List.replicate n p).flatten.getD i 0 = p.getD (i % 16) 0 := by
  intro n
  induction n with
  | zero => intro i hi; omega
  | succ n ih =>
    intro i hi
    rw [List.replicate_succ, List.flatten_cons]
    by_cases h : i < 16
    · rw [List.getD_append _ _ _ _ (by omega), Nat.mod_eq_of_lt h]
    · rw [List.getD_append_right _ _ _ _ (by omega), hp, ih (i - 16) (by omega)]
      congr 1
      omega

theorem map_getD_range (p : List Nat) (hp : p.length = 16) :
    (List.range 16).map (fun j => p.getD j 0) = p := by
  apply List.ext_getElem
  · simp [hp]
  · intro i h1 h2
    simp only [List.getElem_map, List.getElem_range]
    exact List.getD_eq_getElem _ _ h2

theorem tile_index_of_mod (rm : Bool) (t r j : Nat) (hj : j < 16) :
    tile_index_of rm t r j % 16 = j := by
  unfold tile_index_of
  cases rm with
  | true => simp only [if_true]; omega
  | false => simp only [Bool.false_eq_true, if_false]; omega

theorem tile_row_repeated (p : List Nat) (hp : p.length = 16) (rm : Bool) (r : Nat)
    (hr : r < 64) : tile_row (List.replicate 64 p).flatten rm 0 r = p := by
  have h : tile_row (List.replicate 64 p).flatten rm 0 r
      = (List.range 16).map (fun j => p.getD j 0) := by
    unfold tile_row
    apply List.map_congr_left
    intro j hj
    have hj' := List.mem_range.mp hj
    have hbd := tile_index_of_bounds rm 0 r j hr hj'
    rw [getD_flatten_replicate p hp 64 _ (by omega), tile_index_of_mod rm 0 r j hj']
  rw [h, map_getD_range p hp]

theorem get_exp_dword_same (e : Nat) (he : e ≤ 255) :
    get_exp_dword [e, e, e, e] = e * 0x01010101 := by
  rw [get_exp_dword_eq]
  simp only [List.getD_cons_zero, List.getD_cons_succ]
  rw [Nat.mod_eq_of_lt (by omega)]
  norm_num
  omega

theorem flatten_replicate_mul (g : List Nat) (m n : Nat) :
    (List.replicate m (List.replicate n g).flatten).flatten = (List.replicate (m * n) g).flatten := by
  induction m with
  | zero => simp
  | succ m ih =>
    rw [List.replicate_succ, List.flatten_cons, ih, Nat.succ_mul, Nat.add_comm (m * n) n,
      List.replicate_add, List.flatten_append]

theorem tile_words_repeated (f : DataFormat) (p : List Nat) (hp : p.length = 16) (rm ea : Bool) :
    tile_words f (List.replicate 64 p).flatten rm ea 0
      = List.replicate 16 (get_max_exp p ea * 0x01010101)
        ++ (List.replicate 64 (row_words f (get_max_exp p ea) ea p)).flatten := by
  unfold tile_words tile_exp_words tile_data_words
  congr 1
  · have h : ∀ k ∈ List.range 16,
        get_exp_dword
          [get_max_exp (tile_row (List.replicate 64 p).flatten rm 0 (4 * k)) ea,
           get_max_exp (tile_row (List.replicate 64 p).flatten rm 0 (4 * k + 1)) ea,
           get_max_exp (tile_row (List.replicate 64 p).flatten rm 0 (4 * k + 2)) ea,
           get_max_exp (tile_row (List.replicate 64 p).flatten rm 0 (4 * k + 3)) ea]
        = (fun _ => get_max_exp p ea * 0x01010101) k := by
      intro k hk
      have hk' := List.mem_range.mp hk
      rw [tile_row_repeated p hp rm _ (by omega), tile_row_repeated p hp rm _ (by omega),
        tile_row_repeated p hp rm _ (by omega), tile_row_repeated p hp rm _ (by omega),
        get_exp_dword_same _ (get_max_exp_le p ea)]
    rw [List.map_congr_left h, List.map_const', List.length_range]
  · have h : ∀ r ∈ List.range 64,
        row_words f (get_max_exp (tile_row (List.replicate 64 p).flatten rm 0 r) ea) ea
          (tile_row (List.replicate 64 p).flatten rm 0 r)
        = (fun _ => row_words f (get_max_exp p ea) ea p) r := by
      intro r hr
      rw [tile_row_repeated p hp rm r (List.mem_range.mp hr)]
    rw [List.flatMap_congr h, List.flatMap_def, List.map_const', List.length_range]

/-! ## The single-block entry point -/

theorem first_row_eq_take (vec : List Nat) (hlen : 16 ≤ vec.length) :
    (List.range 16).map (fun k => vec.getD (0 + k) 0) = vec.take 16 := by
  have hl : (vec.take 16).length = 16 := by
    rw [List.length_take]; omega
  rw [← map_getD_range (vec.take 16) hl]
  apply List.map_congr_left
  intro k hk
  have hk' := List.mem_range.mp hk
  rw [Nat.zero_add]
  have h := getD_take_drop vec 0 16 k hk'
  rw [List.drop_zero, Nat.zero_add] at h
  exact h.symm

/-- The single-block packer on an input of at least 16 words: one exponent, the
shared exponent of the first 16 elements, and the data words of that row. -/
theorem pack_one_block_eq (f : DataFormat) (vec : List Nat) (ea : Bool)
    (hlen : 16 ≤ vec.length) :
    pack_fp32_vec_as_bfp_one_block f vec ea
      = some ([get_max_exp (vec.take 16) ea],
          row_words f (get_max_exp (vec.take 16) ea) ea (vec.take 16)) := by
  unfold pack_fp32_vec_as_bfp_one_block
  simp only [Option.pure_def, Option.bind_eq_bind, show FACE_WIDTH = 16 from rfl]
  have h := populate_fold_running vec (List.range 16) [] 0 (by
    simp only [List.length_range]; omega)
  rw [h]
  simp only [Option.some_bind, List.length_range, List.nil_append]
  rw [pack_row_eq, first_row_eq_take vec hlen, List.nil_append]

theorem bytes_of_sum (e0 e1 e2 e3 : Nat) (h0 : e0 ≤ 255) (h1 : e1 ≤ 255) (h2 : e2 ≤ 255)
    (h3 : e3 ≤ 255) :
    (e0 + e1 * 2 ^ 8 + e2 * 2 ^ 16 + e3 * 2 ^ 24) / 2 ^ (8 * 0) % 256 = e0 ∧
    (e0 + e1 * 2 ^ 8 + e2 * 2 ^ 16 + e3 * 2 ^ 24) / 2 ^ (8 * 1) % 256 = e1 ∧
    (e0 + e1 * 2 ^ 8 + e2 * 2 ^ 16 + e3 * 2 ^ 24) / 2 ^ (8 * 2) % 256 = e2 ∧
    (e0 + e1 * 2 ^ 8 + e2 * 2 ^ 16 + e3 * 2 ^ 24) / 2 ^ (8 * 3) % 256 = e3 := by
  norm_num
  omega

/-! ## Shape of the dequantizer output -/

theorem testBit_shiftLeft_mod_low (x n i : Nat) (h : i < n) :
    ((x <<< n) % 2 ^ 32).testBit i = false := by
  rw [Nat.testBit_mod_two_pow, Nat.testBit_shiftLeft]
  have hge : ¬ (i ≥ n) := by omega
  simp [hge]

/-- The three fields are shifted up by at least `23 - w`, so the low `23 - w` bits of
the assembled word are zero. -/
theorem generic_dequant_low_bits (w data E : Nat) (ea : Bool) (hw : w ≤ 23) :
    generic_dequant w data E ea % 2 ^ (23 - w) = 0 := by
  apply Nat.eq_of_testBit_eq
  intro i
  rw [Nat.testBit_mod_two_pow, Nat.zero_testBit]
  by_cases hi : i < 23 - w
  · unfold generic_dequant
    simp only [Nat.testBit_or, testBit_shiftLeft_mod_low _ 31 i (by omega),
      testBit_shiftLeft_mod_low _ 23 i (by omega), testBit_shiftLeft_mod_low _ (23 - w) i hi,
      Bool.or_self, Bool.and_false]
  · simp [hi]

/-- The leading one of a non-zero magnitude below `2^w` sits at position `log2 q`,
that is `w - 1 - log2 q` places below bit `w - 1`. -/
theorem leading_one_bounds (w q : Nat) (h0 : q ≠ 0) (hq : q < 2 ^ w) :
    Nat.log2 q ≤ w - 1 ∧ w - 1 - Nat.log2 q < w ∧
    2 ^ (w - 1 - (w - 1 - Nat.log2 q)) ≤ q ∧
    q < 2 ^ (w - 1 - (w - 1 - Nat.log2 q) + 1) := by
  have hw : 0 < w := by
    rcases Nat.eq_zero_or_pos w with h | h
    · subst h
      simp at hq
      exact absurd hq h0
    · exact h
  have hlog : Nat.log2 q < w := (Nat.log2_lt h0).mpr hq
  have hsub : w - 1 - (w - 1 - Nat.log2 q) = Nat.log2 q := by omega
  rw [hsub]
  exact ⟨by omega, by omega, Nat.log2_self_le h0, (Nat.log2_lt h0).mp (Nat.lt_succ_self _)⟩

/-- The fields of an assembled word `sg * 2^31 + X * 2^23 + r * 2^(23 - w)`. -/
theorem assembled_fields (w sg X r : Nat) (hw : w = 1 ∨ w = 3 ∨ w = 7) (hsg : sg ≤ 1)
    (hX : X ≤ 255) (hr : r < 2 ^ w) :
    (sg * 2 ^ 31 + X * 2 ^ 23 + r * 2 ^ (23 - w)) / 2 ^ 31 % 2 = sg ∧
    (sg * 2 ^ 31 + X * 2 ^ 23 + r * 2 ^ (23 - w)) / 2 ^ 23 % 256 = X ∧
    (sg * 2 ^ 31 + X * 2 ^ 23 + r * 2 ^ (23 - w)) % 2 ^ 23 = r * 2 ^ (23 - w) ∧
    (sg * 2 ^ 31 + X * 2 ^ 23 + r * 2 ^ (23 - w)) % 2 ^ 31 = X * 2 ^ 23 + r * 2 ^ (23 - w) := by
  rcases hw with rfl | rfl | rfl <;> norm_num at hr ⊢ <;> omega

/-- Arithmetic core of re-encoding: the mantissa the dequantizer builds from a
magnitude `q` with leading one `sc` places below the top is quantized back to `q`,
by truncation and by round-half-up alike. -/
theorem reencode_core (W sc q : Nat) (hW : W = 1 ∨ W = 3 ∨ W = 7) (hsc : sc < W)
    (hq1 : 2 ^ (W - 1 - sc) ≤ q) (hq2 : q < 2 ^ (W - 1 - sc + 1)) :
    (2 ^ 23 + (q * 2 ^ (sc + 1) % 2 ^ W) * 2 ^ (23 - W)) / 2 ^ sc / 2 ^ (24 - W) = q ∧
    min (((2 ^ 23 + (q * 2 ^ (sc + 1) % 2 ^ W) * 2 ^ (23 - W)) / 2 ^ sc + 2 ^ (23 - W))
      / 2 ^ (24 - W)) (2 ^ W - 1) = q := by
  rcases hW with rfl | rfl | rfl <;> interval_cases sc <;> simp only [Nat.min_def] <;>
    norm_num at hq1 hq2 ⊢ <;> first | omega | (constructor <;> first | omega | (split_ifs <;> omega))

/-! ## Monotonicity of the quantizer -/

/-- The magnitude (low `W` bits) of the code of a non-zero input. -/
theorem convert_u32_to_bfp_magnitude (f : DataFormat) (t : Bool) (x s : Nat) (ea : Bool)
    (hx : x % 2 ^ 31 ≠ 0) :
    convert_u32_to_bfp f t x s ea % 2 ^ MANTISSA_BFP_WIDTH f
      = reduce_mantissa f t (align_mantissa
          (2 ^ 23 + (rebias_exp_mantissa (x / 2 ^ 23 % 256) (x % 2 ^ 23) ea).2) s
          (rebias_exp_mantissa (x / 2 ^ 23 % 256) (x % 2 ^ 23) ea).1) := by
  rw [convert_u32_to_bfp_eq f t x s ea hx]
  have hm := rebias_mantissa_lt (x / 2 ^ 23 % 256) (x % 2 ^ 23) ea (Nat.mod_lt _ (by norm_num))
  generalize rebias_exp_mantissa (x / 2 ^ 23 % 256) (x % 2 ^ 23) ea = em at hm ⊢
  have ha : align_mantissa (2 ^ 23 + em.2) s em.1 < 2 ^ 24 := by
    have := align_mantissa_le (2 ^ 23 + em.2) s em.1
    have h24 : (2 : Nat) ^ 24 = 2 ^ 23 + 2 ^ 23 := by norm_num
    omega
  have hr := reduce_mantissa_le f t _ ha
  generalize reduce_mantissa f t (align_mantissa (2 ^ 23 + em.2) s em.1) = q at hr ⊢
  have hpos : 0 < 2 ^ MANTISSA_BFP_WIDTH f := Nat.pow_pos (by norm_num)
  rw [Nat.add_comm, Nat.add_mul_mod_self_right]
  exact Nat.mod_eq_of_lt (by omega)

theorem reduce_mantissa_mono (f : DataFormat) (t : Bool) (a b : Nat) (hab : a ≤ b)
    (hb : b < 2 ^ 24) : reduce_mantissa f t a ≤ reduce_mantissa f t b := by
  rw [reduce_mantissa_eq f t a (lt_of_le_of_lt hab hb), reduce_mantissa_eq f t b hb]
  cases t with
  | true =>
    simp only [if_true]
    exact Nat.div_le_div_right hab
  | false =>
    simp only [Bool.false_eq_true, if_false]
    have h : (a + 2 ^ (23 - MANTISSA_BFP_WIDTH f)) / 2 ^ (24 - MANTISSA_BFP_WIDTH f)
        ≤ (b + 2 ^ (23 - MANTISSA_BFP_WIDTH f)) / 2 ^ (24 - MANTISSA_BFP_WIDTH f) :=
      Nat.div_le_div_right (by omega)
    simp only [Nat.min_def]
    split_ifs <;> omega

/-- Alignment preserves the order of (exponent, mantissa) pairs whose exponents do
not exceed the shared exponent. -/
theorem align_mantissa_mono (ea eb ma mb s : Nat) (hma : ma < 2 ^ 23)
    (hes : eb ≤ s) (hlex : ea < eb ∨ (ea = eb ∧ ma ≤ mb)) :
    align_mantissa (2 ^ 23 + ma) s ea ≤ align_mantissa (2 ^ 23 + mb) s eb := by
  have hea : ea ≤ s := by rcases hlex with h | ⟨h, _⟩ <;> omega
  rw [align_mantissa_eq, align_mantissa_eq, if_pos hea, if_pos hes]
  rcases hlex with h | ⟨h, hm⟩
  · have hsplit : s - ea = (eb - ea) + (s - eb) := by omega
    rw [hsplit, pow_add, ← Nat.div_div_eq_div_mul]
    apply Nat.div_le_div_right
    have h1 : (2 ^ 23 + ma) / 2 ^ (eb - ea) ≤ (2 ^ 23 + ma) / 2 ^ 1 :=
      Nat.div_le_div_left (Nat.pow_le_pow_right (by norm_num) (by omega)) (by norm_num)
    have h2 : (2 ^ 23 + ma) / 2 ^ 1 ≤ 2 ^ 23 := by
      norm_num at hma ⊢
      omega
    omega
  · subst h
    exact Nat.div_le_div_right (by omega)

/-- The rebias step preserves the order of (exponent, mantissa) pairs. -/
theorem rebias_exp_mantissa_mono (ea eb ma mb : Nat) (is_exp_a : Bool)
    (hma : ma < 2 ^ 23) (hlex : ea < eb ∨ (ea = eb ∧ ma ≤ mb)) :
    (rebias_exp_mantissa ea ma is_exp_a).1 < (rebias_exp_mantissa eb mb is_exp_a).1 ∨
    ((rebias_exp_mantissa ea ma is_exp_a).1 = (rebias_exp_mantissa eb mb is_exp_a).1 ∧
     (rebias_exp_mantissa ea ma is_exp_a).2 ≤ (rebias_exp_mantissa eb mb is_exp_a).2) := by
  cases is_exp_a with
  | false => simpa [rebias_exp_mantissa_native] using hlex
  | true =>
    by_cases ha1 : ea ≤ 111
    · rw [rebias_exp_mantissa_low ea ma ha1]
      simp only
      omega
    · by_cases ha2 : 144 ≤ ea
      · rw [rebias_exp_mantissa_high ea ma ha2, rebias_exp_mantissa_high eb mb (by omega)]
        simp
      · rw [rebias_exp_mantissa_mid ea ma (by omega) (by omega)]
        by_cases hb2 : 144 ≤ eb
        · rw [rebias_exp_mantissa_high eb mb hb2]
          simp only
          norm_num at hma ⊢
          omega
        · rw [rebias_exp_mantissa_mid eb mb (by omega) (by omega)]
          simp only
          omega

/-! ## Claims -/

/-- C2. Range of the quantizer: for every input word, shared exponent, format,
exponent convention and rounding mode the code `c` is below `2^(W+1)`, its magnitude
`c mod 2^W` is at most `MANTISSA_BFP_MAX_VAL = 2^W - 1`, and a zero magnitude comes
with a zero sign bit, that is `c = 0`. -/
theorem convert_u32_to_bfp_range (f : DataFormat) (t : Bool) (input shared_exp : Nat)
    (is_exp_a : Bool) :
    convert_u32_to_bfp f t input shared_exp is_exp_a < 2 ^ (MANTISSA_BFP_WIDTH f + 1) ∧
    convert_u32_to_bfp f t input shared_exp is_exp_a % 2 ^ MANTISSA_BFP_WIDTH f
      ≤ MANTISSA_BFP_MAX_VAL f ∧
    MANTISSA_BFP_MAX_VAL f = 2 ^ MANTISSA_BFP_WIDTH f - 1 ∧
    (convert_u32_to_bfp f t input shared_exp is_exp_a % 2 ^ MANTISSA_BFP_WIDTH f = 0 →
      convert_u32_to_bfp f t input shared_exp is_exp_a / 2 ^ MANTISSA_BFP_WIDTH f % 2 = 0 ∧
      convert_u32_to_bfp f t input shared_exp is_exp_a = 0) := by
  have hpos : 0 < 2 ^ MANTISSA_BFP_WIDTH f := Nat.pow_pos (by norm_num)
  have hmax : MANTISSA_BFP_MAX_VAL f = 2 ^ MANTISSA_BFP_WIDTH f - 1 := by
    unfold MANTISSA_BFP_MAX_VAL
    rw [Nat.shiftLeft_eq, one_mul]
  by_cases hx : input % 2 ^ 31 = 0
  · rw [convert_u32_to_bfp_of_zero f t input shared_exp is_exp_a hx]
    refine ⟨Nat.pow_pos (by norm_num), by simp, hmax, fun _ => ⟨by simp, rfl⟩⟩
  · rw [convert_u32_to_bfp_eq f t input shared_exp is_exp_a hx]
    have hm := rebias_mantissa_lt (input / 2 ^ 23 % 256) (input % 2 ^ 23) is_exp_a
      (Nat.mod_lt _ (by norm_num))
    generalize rebias_exp_mantissa (input / 2 ^ 23 % 256) (input % 2 ^ 23) is_exp_a = em at hm ⊢
    have ha : align_mantissa (2 ^ 23 + em.2) shared_exp em.1 < 2 ^ 24 := by
      have := align_mantissa_le (2 ^ 23 + em.2) shared_exp em.1
      have h24 : (2 : Nat) ^ 24 = 2 ^ 23 + 2 ^ 23 := by norm_num
      omega
    have hr := reduce_mantissa_le f t _ ha
    generalize reduce_mantissa f t (align_mantissa (2 ^ 23 + em.2) shared_exp em.1) = q at hr ⊢
    have hq : q < 2 ^ MANTISSA_BFP_WIDTH f := by omega
    have hs : input / 2 ^ 31 % 2 < 2 := Nat.mod_lt _ (by norm_num)
    have hmod : ∀ b : Nat, (b * 2 ^ MANTISSA_BFP_WIDTH f + q) % 2 ^ MANTISSA_BFP_WIDTH f = q := by
      intro b
      rw [Nat.add_comm, Nat.add_mul_mod_self_right, Nat.mod_eq_of_lt hq]
    refine ⟨?_, ?_, hmax, ?_⟩
    · have h2 : 2 ^ (MANTISSA_BFP_WIDTH f + 1) = 2 * 2 ^ MANTISSA_BFP_WIDTH f := by
        rw [pow_succ, Nat.mul_comm]
      rw [h2]
      have hb : (if q = 0 then 0 else input / 2 ^ 31 % 2) ≤ 1 := by split <;> omega
      have := Nat.mul_le_mul_right (2 ^ MANTISSA_BFP_WIDTH f) hb
      omega
    · rw [hmod, hmax]; omega
    · rw [hmod]
      intro hq0
      subst hq0
      simp

/-- C3. Zero canonicalisation: both `0x00000000` and `0x80000000` are encoded as
code 0, for every format, shared exponent, exponent convention and rounding mode. -/
theorem convert_u32_to_bfp_zero (f : DataFormat) (t : Bool) (shared_exp : Nat)
    (is_exp_a : Bool) :
    convert_u32_to_bfp f t 0x00000000 shared_exp is_exp_a = 0 ∧
    convert_u32_to_bfp f t 0x80000000 shared_exp is_exp_a = 0 := by
  constructor
  · exact convert_u32_to_bfp_of_zero f t _ shared_exp is_exp_a (by norm_num)
  · exact convert_u32_to_bfp_of_zero f t _ shared_exp is_exp_a (by norm_num)

/-- C4. Shared exponent resolution: on a block of 16 words `get_max_exp` is the
maximum of the per-element exponents (raw field, or clamped rebias): it bounds each
of them and is one of them. Hence it bounds the exponent the quantizer computes for
every element. On the block of `adamw_bfp8b_zero_grad_case` (Native) it is 124, the
exponent field of the element `0xBE020000` (-0.1270). -/
theorem get_max_exp_is_max (vec : List Nat) (is_exp_a : Bool) (hlen : vec.length = 16) :
    (∀ i, i < 16 → resolved_exp (vec.getD i 0 / 2 ^ 23 % 256) is_exp_a
        ≤ get_max_exp vec is_exp_a) ∧
    (∃ i, i < vec.length ∧
        get_max_exp vec is_exp_a = resolved_exp (vec.getD i 0 / 2 ^ 23 % 256) is_exp_a) ∧
    (∀ x, x ∈ vec →
        (rebias_exp_mantissa ((x &&& 0x7f800000) >>> 23) (x &&& 0x007fffff) is_exp_a).1
          ≤ get_max_exp vec is_exp_a) ∧
    get_max_exp adamw_block false = 124 ∧
    (adamw_block.getD 11 0 &&& 0x7f800000) >>> 23 = 124 := by
  refine ⟨fun i hi => get_max_exp_ge vec is_exp_a i hi, ?_, ?_, by decide, by decide⟩
  · obtain ⟨i, hi, h⟩ := get_max_exp_attained vec is_exp_a
    exact ⟨i, by omega, h⟩
  · intro x hx
    obtain ⟨i, hi, rfl⟩ := List.getElem_of_mem hx
    rw [rebias_exp_eq_resolved, exp_field_eq]
    have := get_max_exp_ge vec is_exp_a i (by omega)
    rwa [List.getD_eq_getElem _ _ hi] at this

/-- Witness for C4 on the block of the regression scenario. -/
theorem get_max_exp_is_max_witness :
    adamw_block.length = 16 ∧
    (∀ i, i < 16 → resolved_exp (adamw_block.getD i 0 / 2 ^ 23 % 256) false
        ≤ get_max_exp adamw_block false) :=
  ⟨by decide, (get_max_exp_is_max adamw_block false (by decide)).1⟩

/-- C1. Round-trip exactness: for every supported format, both exponent conventions
and every block of 16 words with shared exponent `E = get_max_exp block`, an element
`x` that is `0x00000000`, or is non-zero and on the grid (with `d = E - exp x`, the
value `2^23 + mantissa x` is divisible by `2^(shift + d)`; under the Rebiased
convention the raw exponent lies in 112..143), is reproduced bit for bit by
quantizing with RoundHalfUp and dequantizing. -/
theorem roundtrip_on_grid (f : DataFormat) (hf : is_bfp f = true) (is_exp_a : Bool)
    (block : List Nat) (hlen : block.length = 16) (x : Nat) (hx : x ∈ block)
    (h32 : x < 2 ^ 32)
    (hgrid : x = 0x00000000 ∨
      (x &&& 0x7fffffff ≠ 0 ∧
       (is_exp_a = true →
          112 ≤ (x &&& 0x7f800000) >>> 23 ∧ (x &&& 0x7f800000) >>> 23 ≤ 143) ∧
       2 ^ (MANTISSA_BFP_SHIFT f +
            (get_max_exp block is_exp_a
              - (rebias_exp_mantissa ((x &&& 0x7f800000) >>> 23) (x &&& 0x007fffff) is_exp_a).1))
         ∣ 2 ^ 23 + (x &&& 0x007fffff))) :
    convert_bfp_to_u32 f
      (convert_u32_to_bfp f false x (get_max_exp block is_exp_a) is_exp_a)
      (get_max_exp block is_exp_a) is_exp_a = x := by
  rw [convert_bfp_to_u32_generic f hf]
  rcases hgrid with rfl | ⟨hnz, hreb, hdvd⟩
  · rw [convert_u32_to_bfp_of_zero f false _ _ _ (by norm_num)]
    have := generic_dequant_zero (MANTISSA_BFP_WIDTH f) 0 (get_max_exp block is_exp_a) is_exp_a
    simpa using this
  · have hnz' : x % 2 ^ 31 ≠ 0 := by
      rw [← Nat.and_pow_two_sub_one_eq_mod]; exact hnz
    obtain ⟨i, hi, hxi⟩ := List.getElem_of_mem hx
    have hge := get_max_exp_ge block is_exp_a i (by omega)
    rw [List.getD_eq_getElem _ _ hi, hxi] at hge
    have hEle := get_max_exp_le block is_exp_a
    rw [convert_u32_to_bfp_eq f false x _ is_exp_a hnz']
    rw [exp_field_eq, and_mantissa_mask] at hdvd
    rw [exp_field_eq] at hreb
    generalize get_max_exp block is_exp_a = E at hge hEle hdvd ⊢
    have he : x / 2 ^ 23 % 256 < 256 := Nat.mod_lt _ (by norm_num)
    have hm : x % 2 ^ 23 < 2 ^ 23 := Nat.mod_lt _ (by norm_num)
    have hem : rebias_exp_mantissa (x / 2 ^ 23 % 256) (x % 2 ^ 23) is_exp_a =
        (resolved_exp (x / 2 ^ 23 % 256) is_exp_a, x % 2 ^ 23) := by
      cases is_exp_a with
      | false => rw [rebias_exp_mantissa_native]; rfl
      | true =>
        obtain ⟨h1, h2⟩ := hreb rfl
        rw [rebias_exp_mantissa_mid _ _ h1 h2]
        congr 1
        unfold resolved_exp
        simp only [if_true]
        omega
    have hX : resolved_exp (x / 2 ^ 23 % 256) is_exp_a + (if is_exp_a then 112 else 0)
        = x / 2 ^ 23 % 256 := by
      unfold resolved_exp
      cases is_exp_a with
      | false => simp
      | true =>
        obtain ⟨h1, h2⟩ := hreb rfl
        simp only [if_true]
        omega
    rw [hem] at hdvd ⊢
    simp only at hdvd ⊢
    generalize resolved_exp (x / 2 ^ 23 % 256) is_exp_a = ex at hge hdvd hX ⊢
    obtain ⟨d, rfl⟩ : ∃ d, E = ex + d := ⟨E - ex, by omega⟩
    have hd : ex + d - ex = d := by omega
    rw [hd] at hdvd
    have hw := width_cases f
    have hshift : MANTISSA_BFP_SHIFT f = 24 - MANTISSA_BFP_WIDTH f := rfl
    rw [hshift] at hdvd
    obtain ⟨hdW, hq1, hq2, hq3⟩ := grid_core (MANTISSA_BFP_WIDTH f) d (x % 2 ^ 23) hw hm hdvd
    have h24 : 2 ^ 23 + x % 2 ^ 23 < 2 ^ 24 := by
      have : (2 : Nat) ^ 24 = 2 ^ 23 + 2 ^ 23 := by norm_num
      omega
    have hal : align_mantissa (2 ^ 23 + x % 2 ^ 23) (ex + d) ex = (2 ^ 23 + x % 2 ^ 23) / 2 ^ d := by
      rw [align_mantissa_eq, if_pos (by omega), hd]
    have hred : reduce_mantissa f false ((2 ^ 23 + x % 2 ^ 23) / 2 ^ d) =
        min (((2 ^ 23 + x % 2 ^ 23) / 2 ^ d + 2 ^ (23 - MANTISSA_BFP_WIDTH f))
          / 2 ^ (24 - MANTISSA_BFP_WIDTH f)) (2 ^ MANTISSA_BFP_WIDTH f - 1) := by
      rw [reduce_mantissa_eq f false _ (lt_of_le_of_lt (Nat.div_le_self _ _) h24)]
      simp
    rw [hal, hred]
    generalize min (((2 ^ 23 + x % 2 ^ 23) / 2 ^ d + 2 ^ (23 - MANTISSA_BFP_WIDTH f))
          / 2 ^ (24 - MANTISSA_BFP_WIDTH f)) (2 ^ MANTISSA_BFP_WIDTH f - 1) = q at hq1 hq2 hq3 ⊢
    have hq0 : q ≠ 0 := by
      have : 0 < 2 ^ (MANTISSA_BFP_WIDTH f - 1 - d) := Nat.pow_pos (by norm_num)
      omega
    rw [if_neg hq0]
    have hsg : x / 2 ^ 31 % 2 ≤ 1 := by
      have := Nat.mod_lt (x / 2 ^ 31) (show 2 > 0 by norm_num)
      omega
    have hXd : ex + d - d + (if is_exp_a then 112 else 0) = x / 2 ^ 23 % 256 := by
      rw [Nat.add_sub_cancel]; exact hX
    rw [generic_dequant_eq (MANTISSA_BFP_WIDTH f) (x / 2 ^ 31 % 2) q d (ex + d) is_exp_a
      (by omega) hsg hdW hq1 hq2 (by omega) (by rw [hXd]; omega), hq3, hXd]
    norm_num at h32 ⊢
    omega

/-- Witness for C1: the element `0xBE020000` of the regression block is on the Bfp8
grid for the block's Native shared exponent and survives the round trip. -/
theorem roundtrip_on_grid_witness :
    convert_bfp_to_u32 Bfp8
      (convert_u32_to_bfp Bfp8 false 0xBE020000 (get_max_exp adamw_block false) false)
      (get_max_exp adamw_block false) false = 0xBE020000 :=
  roundtrip_on_grid Bfp8 (by decide) false adamw_block (by decide) 0xBE020000 (by decide)
    (by decide) (Or.inr ⟨by decide, by decide, by decide⟩)

/-- C5, counterexample. On the regression block (Native, Bfp8, RoundHalfUp) the
single-block packer does not return all-zero data words: the result differs from
`([124], [0, 0, 0, 0])`, and the code of `-0.1270` (`0xBE020000`) has magnitude 65. -/
theorem adamw_block_not_all_zero :
    pack_fp32_vec_as_bfp_one_block Bfp8 adamw_block false ≠ some ([124], [0, 0, 0, 0]) ∧
    convert_u32_to_bfp Bfp8 false 0xBE020000 124 false % 2 ^ 7 = 65 := by
  constructor <;> decide

/-- C5, amended. On the regression block (Native, RoundHalfUp), for Bfp8 and for the
`Bfp8_b` tag the source uses, the single-block packer returns the shared exponent
124 of `-0.1270` and the data words `0x11111111, 0x8B000E11, 0xC1BAB3A3, 0x18120099`;
the 16 magnitudes are 17, 17, 17, 17, 17, 14, 0, 11, 35, 51, 58, 65, 25, 0, 18, 24,
so only the elements 6 and 13 (0.0008 and 0.0004) collapse to 0. -/
theorem adamw_block_packed :
    pack_fp32_vec_as_bfp_one_block Bfp8 adamw_block false
      = some ([124], [0x11111111, 0x8B000E11, 0xC1BAB3A3, 0x18120099]) ∧
    pack_fp32_vec_as_bfp_one_block Bfp8_b adamw_block false
      = some ([124], [0x11111111, 0x8B000E11, 0xC1BAB3A3, 0x18120099]) ∧
    (adamw_block.getD 11 0 &&& 0x7f800000) >>> 23 = 124 ∧
    adamw_block.map (fun x => convert_u32_to_bfp Bfp8 false x 124 false % 2 ^ 7)
      = [17, 17, 17, 17, 17, 14, 0, 11, 35, 51, 58, 65, 25, 0, 18, 24] := by
  refine ⟨?_, ?_, ?_, ?_⟩ <;> decide

/-- C6, counterexample. The word `0x47800000` has raw exponent 143; its rebiased
exponent is 31 but its mantissa is kept (not forced to all ones), and its Bfp8
RoundHalfUp code against shared exponent 31 has magnitude 64, not 127. -/
theorem upper_saturation_fails_at_143 :
    (0x47800000 &&& 0x7f800000) >>> 23 = 143 ∧
    rebias_exp_mantissa 143 (0x47800000 &&& 0x007fffff) true = (31, 0) ∧
    convert_u32_to_bfp Bfp8 false 0x47800000 31 true % 2 ^ MANTISSA_BFP_WIDTH Bfp8 = 64 ∧
    MANTISSA_BFP_MAX_VAL Bfp8 = 127 := by
  refine ⟨?_, ?_, ?_, ?_⟩ <;> decide

/-- C6, amended. A word whose raw exponent field is at least 143 has rebiased
exponent 31, in `get_max_exp` and in the quantizer. When the raw exponent is at
least 144 the quantizer forces the 23-bit mantissa to all ones, and for every format
the RoundHalfUp code against shared exponent 31 (Rebiased) has magnitude
`MANTISSA_BFP_MAX_VAL = 2^W - 1`. -/
theorem upper_saturation (f : DataFormat) (x : Nat) :
    (143 ≤ (x &&& 0x7f800000) >>> 23 →
      get_max_exp (List.replicate 16 x) true = 31 ∧
      (rebias_exp_mantissa ((x &&& 0x7f800000) >>> 23) (x &&& 0x007fffff) true).1 = 31) ∧
    (144 ≤ (x &&& 0x7f800000) >>> 23 →
      rebias_exp_mantissa ((x &&& 0x7f800000) >>> 23) (x &&& 0x007fffff) true
        = (31, 0x007fffff) ∧
      convert_u32_to_bfp f false x 31 true % 2 ^ MANTISSA_BFP_WIDTH f = MANTISSA_BFP_MAX_VAL f ∧
      MANTISSA_BFP_MAX_VAL f = 2 ^ MANTISSA_BFP_WIDTH f - 1) := by
  rw [exp_field_eq, and_mantissa_mask]
  have hmax : MANTISSA_BFP_MAX_VAL f = 2 ^ MANTISSA_BFP_WIDTH f - 1 := by
    unfold MANTISSA_BFP_MAX_VAL
    rw [Nat.shiftLeft_eq, one_mul]
  have he : x / 2 ^ 23 % 256 < 256 := Nat.mod_lt _ (by norm_num)
  constructor
  · intro h
    have hres : resolved_exp (x / 2 ^ 23 % 256) true = 31 := by
      unfold resolved_exp
      simp only [if_true]
      omega
    rw [get_max_exp_replicate, rebias_exp_eq_resolved]
    exact ⟨hres, hres⟩
  · intro h
    have hnz : x % 2 ^ 31 ≠ 0 := exp_field_ne_zero x (by omega)
    have hreb := rebias_exp_mantissa_high (x / 2 ^ 23 % 256) (x % 2 ^ 23) h
    refine ⟨hreb, ?_, hmax⟩
    rw [convert_u32_to_bfp_eq f false x 31 true hnz, hreb]
    simp only
    rw [reduce_all_ones, hmax]
    have hpos : 1 < 2 ^ MANTISSA_BFP_WIDTH f := by
      rcases width_cases f with h | h | h <;> rw [h] <;> norm_num
    rw [Nat.add_comm, Nat.add_mul_mod_self_right]
    exact Nat.mod_eq_of_lt (by omega)

/-- Witness for C6: `0x7f800000` (raw exponent 255) under Bfp4. -/
theorem upper_saturation_witness :
    convert_u32_to_bfp Bfp4 false 0x7f800000 31 true % 2 ^ MANTISSA_BFP_WIDTH Bfp4
      = MANTISSA_BFP_MAX_VAL Bfp4 :=
  ((upper_saturation Bfp4 0x7f800000).2 (by decide)).2.1

/-- C7, counterexample. `0x3F000000` is non-zero with raw exponent 126, yet its
rebiased exponent is 14 and its Bfp8 code against shared exponent 14 is 64; and
`0x00000001` (raw exponent 0, rebiased exponent 0) has the non-zero Bfp8 code 64
against shared exponent 0. -/
theorem lower_saturation_fails :
    (0x3F000000 &&& 0x7f800000) >>> 23 = 126 ∧
    (rebias_exp_mantissa 126 (0x3F000000 &&& 0x007fffff) true).1 = 14 ∧
    get_max_exp (List.replicate 16 0x3F000000) true = 14 ∧
    convert_u32_to_bfp Bfp8 false 0x3F000000 14 true = 64 ∧
    (0x00000001 &&& 0x7f800000) >>> 23 = 0 ∧
    convert_u32_to_bfp Bfp8 false 0x00000001 0 true = 64 := by
  refine ⟨?_, ?_, ?_, ?_, ?_, ?_⟩ <;> decide

/-- C7, amended. A non-zero word whose raw exponent field is at most 112 has
rebiased exponent 0, in `get_max_exp` and in the quantizer (for a raw exponent of at
most 111 the mantissa is forced to 0), and for every format and every shared
exponent `s ≤ 31` its RoundHalfUp code under the Rebiased convention is 0 exactly
when `s` exceeds the mantissa width `W`; in particular it is 0 for `W < s ≤ 31`. -/
theorem lower_saturation (f : DataFormat) (x s : Nat) (hx : x &&& 0x7fffffff ≠ 0)
    (he : (x &&& 0x7f800000) >>> 23 ≤ 112) (hs : s ≤ 31) :
    get_max_exp (List.replicate 16 x) true = 0 ∧
    (rebias_exp_mantissa ((x &&& 0x7f800000) >>> 23) (x &&& 0x007fffff) true).1 = 0 ∧
    ((x &&& 0x7f800000) >>> 23 ≤ 111 →
      rebias_exp_mantissa ((x &&& 0x7f800000) >>> 23) (x &&& 0x007fffff) true = (0, 0)) ∧
    (convert_u32_to_bfp f false x s true = 0 ↔ MANTISSA_BFP_WIDTH f < s) ∧
    (MANTISSA_BFP_WIDTH f < s → convert_u32_to_bfp f false x s true % 2 ^ MANTISSA_BFP_WIDTH f = 0) := by
  have hnz : x % 2 ^ 31 ≠ 0 := by
    rw [← Nat.and_pow_two_sub_one_eq_mod]; exact hx
  rw [exp_field_eq, and_mantissa_mask] at *
  have hres : resolved_exp (x / 2 ^ 23 % 256) true = 0 := by
    unfold resolved_exp
    simp only [if_true]
    omega
  have hm := rebias_mantissa_lt (x / 2 ^ 23 % 256) (x % 2 ^ 23) true (Nat.mod_lt _ (by norm_num))
  have hexp : (rebias_exp_mantissa (x / 2 ^ 23 % 256) (x % 2 ^ 23) true).1 = 0 := by
    rw [rebias_exp_eq_resolved]; exact hres
  have hiff : convert_u32_to_bfp f false x s true = 0 ↔ MANTISSA_BFP_WIDTH f < s := by
    rw [convert_u32_to_bfp_eq f false x s true hnz, hexp,
      ← reduce_exp_zero f _ s hm hs]
    generalize reduce_mantissa f false (align_mantissa
      (2 ^ 23 + (rebias_exp_mantissa (x / 2 ^ 23 % 256) (x % 2 ^ 23) true).2) s 0) = q
    constructor
    · intro h; omega
    · intro h; subst h; simp
  refine ⟨?_, hexp, fun h => rebias_exp_mantissa_low _ _ h, hiff, fun h => ?_⟩
  · rw [get_max_exp_replicate]; exact hres
  · rw [hiff.mpr h]; simp

/-- Witness for C7: `0x00000001` under Bfp8 against shared exponent 8. -/
theorem lower_saturation_witness :
    convert_u32_to_bfp Bfp8 false 0x00000001 8 true = 0 ↔ MANTISSA_BFP_WIDTH Bfp8 < 8 :=
  (lower_saturation Bfp8 0x00000001 8 (by decide) (by decide) (by decide)).2.2.2.1

/-- C8. Tile layout and size: on an input of exactly 1024 words the tile packer
returns `16 + 1024 / K` words. Byte `b` of word `k < 16` is `get_max_exp` of row
`4k + b`, the rows being numbered face by face; slot `s` of data word
`r * (16 / K) + w` is the RoundHalfUp code of element `w * K + s` of row `r` against
that row's shared exponent. With `row_major_input`, element `j` of row `i` of face
`(tr, tc)` is `input[(16 tr + i) * 32 + 16 tc + j]`; otherwise row `r` is the chunk
`input[16 r .. 16 r + 15]`. -/
theorem tile_layout (f : DataFormat) (vec : List Nat) (row_major_input is_exp_a : Bool)
    (hlen : vec.length = 1024) :
    ∃ out, pack_fp32_vec_as_bfp_tiles f vec row_major_input is_exp_a = some out ∧
      out.length = 16 + 1024 / nums_in_dword f ∧
      (∀ k b, k < 16 → b < 4 →
        get_byte (out.getD k 0) b
          = get_max_exp (tile_row vec row_major_input 0 (4 * k + b)) is_exp_a) ∧
      (∀ r w s, r < 64 → w < 16 / nums_in_dword f → s < nums_in_dword f →
        (out.getD (16 + (r * (16 / nums_in_dword f) + w)) 0 >>> (s * (32 / nums_in_dword f)))
            % 2 ^ (32 / nums_in_dword f)
          = convert_u32_to_bfp f false
              ((tile_row vec row_major_input 0 r).getD (w * nums_in_dword f + s) 0)
              (get_max_exp (tile_row vec row_major_input 0 r) is_exp_a) is_exp_a) ∧
      (∀ tr tc i j, tr < 2 → tc < 2 → i < 16 → j < 16 →
        (tile_row vec true 0 (32 * tr + 16 * tc + i)).getD j 0
          = vec.getD ((16 * tr + i) * 32 + 16 * tc + j) 0) ∧
      (∀ r j, r < 64 → j < 16 → (tile_row vec false 0 r).getD j 0 = vec.getD (16 * r + j) 0) := by
  refine ⟨tile_words f vec row_major_input is_exp_a 0,
    pack_single_tile f vec row_major_input is_exp_a hlen, ?_, ?_, ?_, ?_, ?_⟩
  · unfold tile_words
    rw [List.length_append, tile_exp_words_length, tile_data_words_length]
    rcases nums_cases f with ⟨h, _⟩ | ⟨h, _⟩ | ⟨h, _⟩ <;> rw [h]
  · intro k b hk hb
    unfold tile_words
    rw [List.getD_append _ _ _ _ (by rw [tile_exp_words_length]; exact hk)]
    unfold tile_exp_words
    rw [List.getD_eq_getElem _ _ (by simpa using hk)]
    simp only [List.getElem_map, List.getElem_range]
    rw [get_byte_get_exp_dword _ _ _ _ b (get_max_exp_le _ _) (get_max_exp_le _ _)
      (get_max_exp_le _ _) (get_max_exp_le _ _) hb]
    interval_cases b <;> rfl
  · intro r w s hr hw hs
    unfold tile_words
    rw [List.getD_append_right _ _ _ _ (by rw [tile_exp_words_length]; omega),
      tile_exp_words_length, Nat.add_sub_cancel_left]
    unfold tile_data_words
    rw [flatMap_range_getD _ _ (fun r => row_words_length f _ is_exp_a _) 64 r w hr hw]
    exact row_words_slot f _ is_exp_a _ w s hw hs
  · intro tr tc i j htr htc hi hj
    rw [tile_row_getD _ _ _ _ _ hj]
    unfold tile_index_of
    simp only [if_true]
    congr 1
    have h1 : (32 * tr + 16 * tc + i) / 32 = tr := by omega
    have h2 : (32 * tr + 16 * tc + i) % 16 = i := by omega
    have h3 : (32 * tr + 16 * tc + i) / 16 % 2 = tc := by omega
    rw [h1, h2, h3]
    ring
  · intro r j _ hj
    rw [tile_row_getD _ _ _ _ _ hj]
    unfold tile_index_of
    simp

/-- Witness for C8: the tile filled with the word `0x3D0A0000`. -/
theorem tile_layout_witness :
    ∃ out, pack_fp32_vec_as_bfp_tiles Bfp8 (List.replicate 1024 0x3D0A0000) true false
        = some out ∧ out.length = 16 + 1024 / nums_in_dword Bfp8 :=
  let ⟨out, h1, h2, _⟩ := tile_layout Bfp8 (List.replicate 1024 0x3D0A0000) true false
    (List.length_replicate _ _)
  ⟨out, h1, h2⟩

/-- C9. Tile independence: for inputs `a` and `b` whose lengths are multiples of 1024
the tile packer succeeds on `a`, `b` and `a ++ b`, and the output for `a ++ b` is the
output for `a` followed by the output for `b`. Each output is the concatenation, in
tile order, of the tiles' 16 exponent words followed by their data words, and the
words of a tile are unchanged when the input is changed outside that tile. -/
theorem tile_independence (f : DataFormat) (a b : List Nat) (row_major_input is_exp_a : Bool)
    (ha : a.length % 1024 = 0) (hb : b.length % 1024 = 0) :
    (∃ ra rb,
      pack_fp32_vec_as_bfp_tiles f a row_major_input is_exp_a = some ra ∧
      pack_fp32_vec_as_bfp_tiles f b row_major_input is_exp_a = some rb ∧
      pack_fp32_vec_as_bfp_tiles f (a ++ b) row_major_input is_exp_a = some (ra ++ rb) ∧
      ra = (List.range (a.length / 1024)).flatMap (fun t =>
        tile_exp_words a row_major_input is_exp_a t
          ++ tile_data_words f a row_major_input is_exp_a t)) ∧
    (∀ (v : List Nat) (t : Nat),
      (∀ i, 1024 * t ≤ i → i < 1024 * (t + 1) → v.getD i 0 = a.getD i 0) →
      tile_exp_words v row_major_input is_exp_a t
          ++ tile_data_words f v row_major_input is_exp_a t
        = tile_exp_words a row_major_input is_exp_a t
          ++ tile_data_words f a row_major_input is_exp_a t) := by
  constructor
  · refine ⟨_, _, pack_tiles_eq f a row_major_input is_exp_a,
      pack_tiles_eq f b row_major_input is_exp_a, ?_, rfl⟩
    rw [pack_tiles_eq, tiles_append f a b row_major_input is_exp_a (a.length / 1024)
      (b.length / 1024) (by omega) (by omega)]
  · intro v t hv
    apply tile_words_congr
    intro r j hr hj
    have hbd := tile_index_of_bounds row_major_input t r j hr hj
    exact hv _ hbd.1 hbd.2

/-- Witness for C9: two one-tile inputs. -/
theorem tile_independence_witness :
    ∃ ra rb,
      pack_fp32_vec_as_bfp_tiles Bfp4 (List.replicate 1024 0x3D0A0000) false true = some ra ∧
      pack_fp32_vec_as_bfp_tiles Bfp4 (List.replicate 1024 0xBE020000) false true = some rb ∧
      pack_fp32_vec_as_bfp_tiles Bfp4
        (List.replicate 1024 0x3D0A0000 ++ List.replicate 1024 0xBE020000) false true
        = some (ra ++ rb) :=
  let ⟨ra, rb, h1, h2, h3, _⟩ := (tile_independence Bfp4 (List.replicate 1024 0x3D0A0000)
    (List.replicate 1024 0xBE020000) false true
    (by rw [List.length_replicate]) (by rw [List.length_replicate])).1
  ⟨ra, rb, h1, h2, h3⟩

/-- C10. Tile scenario: for a 16-word pattern `p`, packing the tile made of 64
copies of `p` gives 16 exponent words all equal to `E * 0x01010101` with
`E = get_max_exp p`, followed by 64 copies of one group of `16 / K` data words, the
packed RoundHalfUp codes of `p` against `E`. Grouped by face, the exponent words are
4 copies of the same 4 words and the data words are 4 copies of the same face
block. -/
theorem tile_scenario (f : DataFormat) (p : List Nat) (row_major_input is_exp_a : Bool)
    (hp : p.length = 16) :
    ∃ out, pack_fp32_vec_as_bfp_tiles f (List.replicate 64 p).flatten row_major_input is_exp_a
        = some out ∧
      out = List.replicate 16 (get_max_exp p is_exp_a * 0x01010101)
        ++ (List.replicate 64 (row_words f (get_max_exp p is_exp_a) is_exp_a p)).flatten ∧
      out = (List.replicate 4 (List.replicate 4 (get_max_exp p is_exp_a * 0x01010101))).flatten
        ++ (List.replicate 4 (List.replicate 16
              (row_words f (get_max_exp p is_exp_a) is_exp_a p)).flatten).flatten ∧
      (row_words f (get_max_exp p is_exp_a) is_exp_a p).length = 16 / nums_in_dword f ∧
      (∀ w s, w < 16 / nums_in_dword f → s < nums_in_dword f →
        ((row_words f (get_max_exp p is_exp_a) is_exp_a p).getD w 0
            >>> (s * (32 / nums_in_dword f))) % 2 ^ (32 / nums_in_dword f)
          = convert_u32_to_bfp f false (p.getD (w * nums_in_dword f + s) 0)
              (get_max_exp p is_exp_a) is_exp_a) := by
  have hlen : (List.replicate 64 p).flatten.length = 1024 := by
    simp [hp]
  refine ⟨_, pack_single_tile f _ row_major_input is_exp_a hlen,
    tile_words_repeated f p hp row_major_input is_exp_a, ?_, row_words_length f _ _ _,
    fun w s hw hs => row_words_slot f _ is_exp_a p w s hw hs⟩
  rw [tile_words_repeated f p hp row_major_input is_exp_a, flatten_replicate_mul,
    List.flatten_replicate_replicate]

/-- Witness for C10: the regression block repeated over a Bfp8 tile. -/
theorem tile_scenario_witness :
    ∃ out, pack_fp32_vec_as_bfp_tiles Bfp8 (List.replicate 64 adamw_block).flatten true false
        = some out ∧
      out = List.replicate 16 (get_max_exp adamw_block false * 0x01010101)
        ++ (List.replicate 64 (row_words Bfp8 (get_max_exp adamw_block false) false
              adamw_block)).flatten :=
  let ⟨out, h1, h2, _⟩ := tile_scenario Bfp8 adamw_block true false (by decide)
  ⟨out, h1, h2⟩

/-- C11. Single-block entry point: on an input of at least 16 words, for every
format and both conventions, `pack_fp32_vec_as_bfp_one_block` returns exactly one
exponent byte, `get_max_exp` of the first 16 elements, and exactly `16 / K` data
words; slot `s` of word `w`, extracted by shift and mask, is the RoundHalfUp code of
element `w * K + s` against that exponent, slot 0 being the least significant. -/
theorem one_block_layout (f : DataFormat) (vec : List Nat) (is_exp_a : Bool)
    (hlen : 16 ≤ vec.length) :
    ∃ e ws, pack_fp32_vec_as_bfp_one_block f vec is_exp_a = some ([e], ws) ∧
      e = get_max_exp (vec.take 16) is_exp_a ∧
      ws.length = 16 / nums_in_dword f ∧
      (∀ w s, w < 16 / nums_in_dword f → s < nums_in_dword f →
        (ws.getD w 0 >>> (s * (32 / nums_in_dword f))) &&& ((1 <<< (32 / nums_in_dword f)) - 1)
          = convert_u32_to_bfp f false (vec.getD (w * nums_in_dword f + s) 0) e is_exp_a) := by
  refine ⟨_, _, pack_one_block_eq f vec is_exp_a hlen, rfl, row_words_length f _ _ _, ?_⟩
  intro w s hw hs
  rw [Nat.shiftLeft_eq, one_mul, Nat.and_pow_two_sub_one_eq_mod,
    row_words_slot f _ is_exp_a _ w s hw hs]
  have hk : w * nums_in_dword f + s < 16 := by
    rcases nums_cases f with ⟨h, _⟩ | ⟨h, _⟩ | ⟨h, _⟩ <;> rw [h] at hw hs ⊢ <;> omega
  have h := getD_take_drop vec 0 16 (w * nums_in_dword f + s) hk
  rw [List.drop_zero, Nat.zero_add] at h
  rw [h]

/-- Witness for C11: the regression block under Bfp4. -/
theorem one_block_layout_witness :
    ∃ e ws, pack_fp32_vec_as_bfp_one_block Bfp4 adamw_block true = some ([e], ws) ∧
      e = get_max_exp (adamw_block.take 16) true ∧ ws.length = 16 / nums_in_dword Bfp4 :=
  let ⟨e, ws, h1, h2, h3, _⟩ := one_block_layout Bfp4 adamw_block true (by decide)
  ⟨e, ws, h1, h2, h3⟩

/-- C12. Exponent word packing and its inverse: for a vector `v` of 4 bytes,
`get_exp_dword v` is `v[0] + 2^8 v[1] + 2^16 v[2] + 2^24 v[3]` (byte `i` in bits
`8i+7..8i`) and `get_byte` at index `i < 4` returns `v[i]`; conversely a 32-bit word
is rebuilt by `get_exp_dword` from its four `get_byte`s. -/
theorem exp_dword_roundtrip :
    (∀ v : List Nat, v.length = 4 → (∀ x ∈ v, x ≤ 255) →
      get_exp_dword v
        = v.getD 0 0 + 2 ^ 8 * v.getD 1 0 + 2 ^ 16 * v.getD 2 0 + 2 ^ 24 * v.getD 3 0 ∧
      (∀ i, i < 4 → get_byte (get_exp_dword v) i = v.getD i 0 ∧
        get_exp_dword v / 2 ^ (8 * i) % 2 ^ 8 = v.getD i 0)) ∧
    (∀ w : Nat, w < 2 ^ 32 →
      get_exp_dword [get_byte w 0, get_byte w 1, get_byte w 2, get_byte w 3] = w) := by
  constructor
  · intro v hlen hv
    have hb : ∀ i, i < 4 → v.getD i 0 ≤ 255 := by
      intro i hi
      rw [List.getD_eq_getElem _ _ (by omega)]
      exact hv _ (List.getElem_mem _)
    have h0 := hb 0 (by norm_num)
    have h1 := hb 1 (by norm_num)
    have h2 := hb 2 (by norm_num)
    have h3 := hb 3 (by norm_num)
    have hsum := get_exp_dword_eq v
    rw [Nat.mod_eq_of_lt (by omega), Nat.mod_eq_of_lt (by omega), Nat.mod_eq_of_lt (by omega),
      Nat.mod_eq_of_lt (by omega)] at hsum
    refine ⟨by rw [hsum]; ring, ?_⟩
    obtain ⟨b0, b1, b2, b3⟩ := bytes_of_sum _ _ _ _ h0 h1 h2 h3
    intro i hi
    rw [get_byte_eq _ _ hi, hsum, show (2 : Nat) ^ 8 = 256 from rfl]
    interval_cases i
    · exact ⟨b0, b0⟩
    · exact ⟨b1, b1⟩
    · exact ⟨b2, b2⟩
    · exact ⟨b3, b3⟩
  · intro w hw
    rw [get_exp_dword_eq]
    simp only [List.getD_cons_zero, List.getD_cons_succ]
    rw [get_byte_eq _ _ (by norm_num), get_byte_eq _ _ (by norm_num),
      get_byte_eq _ _ (by norm_num), get_byte_eq _ _ (by norm_num)]
    norm_num at hw ⊢
    omega

/-- Witness for C12: the bytes 124, 0, 255, 128. -/
theorem exp_dword_roundtrip_witness :
    get_exp_dword [124, 0, 255, 128] = 124 + 2 ^ 8 * 0 + 2 ^ 16 * 255 + 2 ^ 24 * 128 ∧
    get_byte (get_exp_dword [124, 0, 255, 128]) 3 = 128 ∧
    get_exp_dword [get_byte 0xBE020000 0, get_byte 0xBE020000 1, get_byte 0xBE020000 2,
      get_byte 0xBE020000 3] = 0xBE020000 :=
  ⟨(exp_dword_roundtrip.1 [124, 0, 255, 128] (by decide) (by decide)).1,
   ((exp_dword_roundtrip.1 [124, 0, 255, 128] (by decide) (by decide)).2 3 (by decide)).1,
   exp_dword_roundtrip.2 0xBE020000 (by decide)⟩

/-- C13. Dequantizer output precision: for every supported format, every code, every
shared exponent and both conventions, the low `23 - W` bits of the word returned by
`convert_bfp_to_u32` are zero, i.e. all mantissa bits below the top `W` are zero. -/
theorem dequant_low_bits_zero (f : DataFormat) (hf : is_bfp f = true)
    (data shared_exp : Nat) (is_exp_a : Bool) :
    convert_bfp_to_u32 f data shared_exp is_exp_a % 2 ^ (23 - MANTISSA_BFP_WIDTH f) = 0 ∧
    (∀ i, i < 23 - MANTISSA_BFP_WIDTH f →
      (convert_bfp_to_u32 f data shared_exp is_exp_a).testBit i = false) := by
  have h : convert_bfp_to_u32 f data shared_exp is_exp_a % 2 ^ (23 - MANTISSA_BFP_WIDTH f) = 0 := by
    rw [convert_bfp_to_u32_generic f hf]
    exact generic_dequant_low_bits _ _ _ _ (by rcases width_cases f with h | h | h <;> omega)
  refine ⟨h, fun i hi => ?_⟩
  have hb := Nat.testBit_mod_two_pow (convert_bfp_to_u32 f data shared_exp is_exp_a)
    (23 - MANTISSA_BFP_WIDTH f) i
  rw [h, Nat.zero_testBit] at hb
  simpa [hi] using hb.symm

/-- Witness for C13: the Bfp4 code `0xB` against shared exponent 200, Rebiased. -/
theorem dequant_low_bits_zero_witness :
    convert_bfp_to_u32 Bfp4 0xB 200 true % 2 ^ (23 - MANTISSA_BFP_WIDTH Bfp4) = 0 :=
  (dequant_low_bits_zero Bfp4 (by decide) 0xB 200 true).1

/-- C17. Reference definition of the dequantizer: for a supported format, a code
with sign bit `sg` and magnitude `q < 2^W`, a shared exponent `E` and either
convention. If `q = 0` the result is `sg * 2^31`, whatever `E` is. If `q ≠ 0`, with
`p = log2 q` the position of the leading one and `shiftCount = W - 1 - p`, the
leading-one search stops after exactly `shiftCount ≤ W - 1` shifts, and when
`E ≥ shiftCount` and `X = E - shiftCount` (`+ 112` when Rebiased) is at most 255 the
result is `sg * 2^31 + X * 2^23 + ((q * 2^(shiftCount+1)) mod 2^W) * 2^(23-W)`. -/
theorem dequant_reference (f : DataFormat) (hf : is_bfp f = true) (sg q E : Nat)
    (is_exp_a : Bool) (hsg : sg ≤ 1) (hq : q < 2 ^ MANTISSA_BFP_WIDTH f) :
    (q = 0 →
      convert_bfp_to_u32 f (sg * 2 ^ MANTISSA_BFP_WIDTH f + q) E is_exp_a = sg * 2 ^ 31) ∧
    (q ≠ 0 →
      Nat.log2 q ≤ MANTISSA_BFP_WIDTH f - 1 ∧
      normalize_loop (2 ^ (MANTISSA_BFP_WIDTH f - 1)) 32 q 0
        = (q * 2 ^ (MANTISSA_BFP_WIDTH f - 1 - Nat.log2 q),
           MANTISSA_BFP_WIDTH f - 1 - Nat.log2 q) ∧
      (normalize_loop (2 ^ (MANTISSA_BFP_WIDTH f - 1)) 32 q 0).1
        &&& 2 ^ (MANTISSA_BFP_WIDTH f - 1) ≠ 0 ∧
      (MANTISSA_BFP_WIDTH f - 1 - Nat.log2 q ≤ E →
       E - (MANTISSA_BFP_WIDTH f - 1 - Nat.log2 q) + (if is_exp_a then 112 else 0) ≤ 255 →
        convert_bfp_to_u32 f (sg * 2 ^ MANTISSA_BFP_WIDTH f + q) E is_exp_a
          = sg * 2 ^ 31
            + (E - (MANTISSA_BFP_WIDTH f - 1 - Nat.log2 q) + (if is_exp_a then 112 else 0))
              * 2 ^ 23
            + (q * 2 ^ (MANTISSA_BFP_WIDTH f - 1 - Nat.log2 q + 1) % 2 ^ MANTISSA_BFP_WIDTH f)
              * 2 ^ (23 - MANTISSA_BFP_WIDTH f))) := by
  have hw : MANTISSA_BFP_WIDTH f ≤ 23 := by
    rcases width_cases f with h | h | h <;> omega
  have hw1 : 1 ≤ MANTISSA_BFP_WIDTH f := by
    rcases width_cases f with h | h | h <;> omega
  constructor
  · intro h0
    subst h0
    rw [convert_bfp_to_u32_generic f hf, Nat.add_zero, generic_dequant_zero, Nat.shiftLeft_eq]
    apply Nat.mod_eq_of_lt
    norm_num
    omega
  · intro h0
    obtain ⟨hlog, hsc, hlo, hhi⟩ := leading_one_bounds _ q h0 hq
    have hnorm := normalize_loop_spec (MANTISSA_BFP_WIDTH f - 1) (by omega)
      (MANTISSA_BFP_WIDTH f - 1 - Nat.log2 q) 32 q 0 (by omega) (by omega) hlo hhi
    rw [Nat.zero_add] at hnorm
    refine ⟨hlog, hnorm, ?_, ?_⟩
    · have hpow : q < 2 ^ (MANTISSA_BFP_WIDTH f - 1 + 1) := by
        rw [Nat.sub_add_cancel hw1]; exact hq
      exact (normalize_loop_exit (MANTISSA_BFP_WIDTH f - 1) q (by omega) h0 hpow).1
    · intro hE hX
      rw [convert_bfp_to_u32_generic f hf]
      exact generic_dequant_eq _ sg q _ E is_exp_a hw hsg hsc hlo hhi hE hX

/-- Witness for C17: the Bfp8 code `0x85` (sign 1, magnitude 5) against shared
exponent 124, Native. -/
theorem dequant_reference_witness :
    convert_bfp_to_u32 Bfp8 (1 * 2 ^ MANTISSA_BFP_WIDTH Bfp8 + 5) 124 false
      = 1 * 2 ^ 31
        + (124 - (MANTISSA_BFP_WIDTH Bfp8 - 1 - Nat.log2 5) + (if false then 112 else 0)) * 2 ^ 23
        + (5 * 2 ^ (MANTISSA_BFP_WIDTH Bfp8 - 1 - Nat.log2 5 + 1) % 2 ^ MANTISSA_BFP_WIDTH Bfp8)
          * 2 ^ (23 - MANTISSA_BFP_WIDTH Bfp8) := by
  have h := dequant_reference Bfp8 (by decide) 1 5 124 false (by decide) (by decide)
  have e : MANTISSA_BFP_WIDTH Bfp8 - 1 - Nat.log2 5 ≤ 124 :=
    le_trans (Nat.sub_le _ _) (by decide)
  have g : 124 - (MANTISSA_BFP_WIDTH Bfp8 - 1 - Nat.log2 5) + (if false then 112 else 0)
      ≤ 255 := le_trans (Nat.sub_le 124 _) (by decide)
  have h0 : (5 : Nat) ≠ 0 := by decide
  have h3 := (h.2 h0).2.2.2 e g
  rw [h3]

/-- C19. The Bfp2 dequantizer agrees with the generic procedure: `generic_dequant`
is the procedure of the Bfp4 and Bfp8 branches with the width as a parameter (it is
those branches at `w = 3` and `w = 7`); at `w = 1` the leading-one search on the only
non-zero magnitude 1 performs zero shifts, and the result equals
`convert_bfp_to_u32` for `Bfp2` and `Bfp2_b` on every code, every shared exponent
and both conventions. -/
theorem bfp2_dequant_is_generic (data shared_exp : Nat) (is_exp_a : Bool) :
    convert_bfp_to_u32 Bfp2 data shared_exp is_exp_a
      = generic_dequant 1 data shared_exp is_exp_a ∧
    convert_bfp_to_u32 Bfp2_b data shared_exp is_exp_a
      = generic_dequant 1 data shared_exp is_exp_a ∧
    normalize_loop (2 ^ (1 - 1)) 32 1 0 = (1, 0) ∧
    convert_bfp_to_u32 Bfp4 data shared_exp is_exp_a
      = generic_dequant 3 data shared_exp is_exp_a ∧
    convert_bfp_to_u32 Bfp4_b data shared_exp is_exp_a
      = generic_dequant 3 data shared_exp is_exp_a ∧
    convert_bfp_to_u32 Bfp8 data shared_exp is_exp_a
      = generic_dequant 7 data shared_exp is_exp_a ∧
    convert_bfp_to_u32 Bfp8_b data shared_exp is_exp_a
      = generic_dequant 7 data shared_exp is_exp_a := by
  refine ⟨convert_bfp_to_u32_generic Bfp2 rfl _ _ _, convert_bfp_to_u32_generic Bfp2_b rfl _ _ _,
    by decide, convert_bfp_to_u32_generic Bfp4 rfl _ _ _,
    convert_bfp_to_u32_generic Bfp4_b rfl _ _ _, convert_bfp_to_u32_generic Bfp8 rfl _ _ _,
    convert_bfp_to_u32_generic Bfp8_b rfl _ _ _⟩

/-- C14, counterexample. Within the stated domain bit 31 of the decoded word can
differ from the sign bit of the code: the Bfp8 code `0x01` (sign 0) against shared
exponent 0, Native, and the Bfp8 code `0x40` (sign 0) against shared exponent 255,
Rebiased, both decode to a word whose bit 31 is 1. -/
theorem sign_placement_fails :
    0x01 < 2 ^ (MANTISSA_BFP_WIDTH Bfp8 + 1) ∧
    0x01 / 2 ^ MANTISSA_BFP_WIDTH Bfp8 % 2 = 0 ∧
    convert_bfp_to_u32 Bfp8 0x01 0 false = 0xFD000000 ∧
    convert_bfp_to_u32 Bfp8 0x01 0 false / 2 ^ 31 % 2 = 1 ∧
    0x40 / 2 ^ MANTISSA_BFP_WIDTH Bfp8 % 2 = 0 ∧
    convert_bfp_to_u32 Bfp8 0x40 255 true / 2 ^ 31 % 2 = 1 := by
  refine ⟨?_, ?_, ?_, ?_, ?_, ?_⟩ <;> decide

/-- C14, amended. For a supported format, a code below `2^(W+1)` with sign bit `sg`
and magnitude `q`, a shared exponent `E` and either convention: if `q = 0`, bit 31 of
the decoded word is `sg` and bits 30..23 are 0; if `q ≠ 0`, `E` is at least
`shiftCount = W - 1 - log2 q` (the condition of the source's `TT_ASSERT`) and the
resulting exponent `X = E - shiftCount` (`+ 112` when Rebiased) is at most 255, bit 31
is `sg` and bits 30..23 hold `X`. -/
theorem sign_placement (f : DataFormat) (hf : is_bfp f = true) (code E : Nat)
    (is_exp_a : Bool) (hcode : code < 2 ^ (MANTISSA_BFP_WIDTH f + 1)) :
    (code % 2 ^ MANTISSA_BFP_WIDTH f = 0 →
      convert_bfp_to_u32 f code E is_exp_a / 2 ^ 31 % 2 = code / 2 ^ MANTISSA_BFP_WIDTH f % 2 ∧
      convert_bfp_to_u32 f code E is_exp_a / 2 ^ 23 % 256 = 0) ∧
    (code % 2 ^ MANTISSA_BFP_WIDTH f ≠ 0 →
      MANTISSA_BFP_WIDTH f - 1 - Nat.log2 (code % 2 ^ MANTISSA_BFP_WIDTH f) ≤ E →
      E - (MANTISSA_BFP_WIDTH f - 1 - Nat.log2 (code % 2 ^ MANTISSA_BFP_WIDTH f))
        + (if is_exp_a then 112 else 0) ≤ 255 →
      convert_bfp_to_u32 f code E is_exp_a / 2 ^ 31 % 2 = code / 2 ^ MANTISSA_BFP_WIDTH f % 2 ∧
      convert_bfp_to_u32 f code E is_exp_a / 2 ^ 23 % 256
        = E - (MANTISSA_BFP_WIDTH f - 1 - Nat.log2 (code % 2 ^ MANTISSA_BFP_WIDTH f))
          + (if is_exp_a then 112 else 0)) := by
  have hww := width_cases f
  have hw : MANTISSA_BFP_WIDTH f ≤ 23 := by
    rcases hww with h | h | h <;> omega
  have hpos : 0 < 2 ^ MANTISSA_BFP_WIDTH f := Nat.pow_pos (by norm_num)
  have hsplit : code = code / 2 ^ MANTISSA_BFP_WIDTH f * 2 ^ MANTISSA_BFP_WIDTH f
      + code % 2 ^ MANTISSA_BFP_WIDTH f := by
    rw [Nat.mul_comm]; exact (Nat.div_add_mod _ _).symm
  have hsg : code / 2 ^ MANTISSA_BFP_WIDTH f ≤ 1 := by
    have : code / 2 ^ MANTISSA_BFP_WIDTH f < 2 := by
      apply Nat.div_lt_of_lt_mul
      rw [pow_succ] at hcode
      exact hcode
    omega
  have hq : code % 2 ^ MANTISSA_BFP_WIDTH f < 2 ^ MANTISSA_BFP_WIDTH f := Nat.mod_lt _ hpos
  have hsg2 : code / 2 ^ MANTISSA_BFP_WIDTH f % 2 = code / 2 ^ MANTISSA_BFP_WIDTH f :=
    Nat.mod_eq_of_lt (by omega)
  rw [hsg2, convert_bfp_to_u32_generic f hf]
  generalize code / 2 ^ MANTISSA_BFP_WIDTH f = sg at hsplit hsg
  generalize code % 2 ^ MANTISSA_BFP_WIDTH f = q at hsplit hq
  subst hsplit
  constructor
  · intro h0
    subst h0
    rw [Nat.add_zero, generic_dequant_zero, Nat.shiftLeft_eq]
    norm_num
    omega
  · intro h0 hE hX
    obtain ⟨_, hsc, hlo, hhi⟩ := leading_one_bounds _ q h0 hq
    rw [generic_dequant_eq _ sg q _ E is_exp_a hw hsg hsc hlo hhi hE hX]
    have hr : q * 2 ^ (MANTISSA_BFP_WIDTH f - 1 - Nat.log2 q + 1) % 2 ^ MANTISSA_BFP_WIDTH f
        < 2 ^ MANTISSA_BFP_WIDTH f := Nat.mod_lt _ hpos
    have hfields := assembled_fields _ sg _ _ hww hsg hX hr
    exact ⟨hfields.1, hfields.2.1⟩

/-- Witness for C14: the Bfp8 code `0xC1` against shared exponent 124, Native. -/
theorem sign_placement_witness :
    convert_bfp_to_u32 Bfp8 0xC1 124 false / 2 ^ 31 % 2 = 0xC1 / 2 ^ MANTISSA_BFP_WIDTH Bfp8 % 2 ∧
    convert_bfp_to_u32 Bfp8 0xC1 124 false / 2 ^ 23 % 256
      = 124 - (MANTISSA_BFP_WIDTH Bfp8 - 1 - Nat.log2 (0xC1 % 2 ^ MANTISSA_BFP_WIDTH Bfp8))
        + (if false then 112 else 0) := by
  have h := sign_placement Bfp8 (by decide) 0xC1 124 false (by decide)
  have h0 : 0xC1 % 2 ^ MANTISSA_BFP_WIDTH Bfp8 ≠ 0 := by decide
  have e : MANTISSA_BFP_WIDTH Bfp8 - 1 - Nat.log2 (0xC1 % 2 ^ MANTISSA_BFP_WIDTH Bfp8) ≤ 124 :=
    le_trans (Nat.sub_le _ _) (by decide)
  have g : 124 - (MANTISSA_BFP_WIDTH Bfp8 - 1 - Nat.log2 (0xC1 % 2 ^ MANTISSA_BFP_WIDTH Bfp8))
      + (if false then 112 else 0) ≤ 255 := le_trans (Nat.sub_le 124 _) (by decide)
  exact h.2 h0 e g

/-- C15, counterexample. With the tags `Float32` and `Invalid` the dequantizer
returns the word 0, the same word it returns for the Bfp8 code 0: nothing signals
that the format is unsupported. -/
theorem unsupported_format_not_signalled :
    is_bfp Float32 = false ∧ is_bfp Invalid = false ∧
    convert_bfp_to_u32 Float32 0xC1 124 false = 0 ∧
    convert_bfp_to_u32 Invalid 0xC1 124 false = 0 ∧
    convert_bfp_to_u32 Bfp8 0 124 false = 0 := by
  refine ⟨?_, ?_, ?_, ?_, ?_⟩ <;> decide

/-- C15, amended. Called with a format tag that is none of Bfp2, Bfp4, Bfp8, Bfp2_b,
Bfp4_b, Bfp8_b, `convert_bfp_to_u32` returns the word `0x00000000` for every code,
shared exponent and convention. -/
theorem unsupported_format_returns_zero (f : DataFormat) (hf : is_bfp f = false)
    (data shared_exp : Nat) (is_exp_a : Bool) :
    convert_bfp_to_u32 f data shared_exp is_exp_a = 0 := by
  cases f <;> first
    | exact absurd hf (by decide)
    | rfl

/-- Witness for C15: the tag `Float16_b`. -/
theorem unsupported_format_returns_zero_witness :
    convert_bfp_to_u32 Float16_b 0x7f 31 true = 0 :=
  unsupported_format_returns_zero Float16_b (by decide) 0x7f 31 true

/-- C16. Reference definition of the quantizer: under the Native convention, for a
non-zero input and every shared exponent, `convert_u32_to_bfp` equals
`reference_quantizer` for both rounding modes. The chunked shift of the source is one
exact floor division, which gives 0 once the exponent difference reaches 24. Bfp8,
shared exponent `0xff`: the inputs `0xff800000` and `0xff7f0000` both give `0xC0`. -/
theorem quantizer_reference (f : DataFormat) (t : Bool) (x S : Nat)
    (hx : x &&& 0x7fffffff ≠ 0) :
    convert_u32_to_bfp f t x S false = reference_quantizer f t x S ∧
    (∀ M d, (shift_loop d M d).2 ≤ 31 ∧
      (shift_loop d M d).1 >>> (shift_loop d M d).2 = M / 2 ^ d) ∧
    (∀ m d, m < 2 ^ 23 → 24 ≤ d → (2 ^ 23 + m) / 2 ^ d = 0) ∧
    convert_u32_to_bfp Bfp8_b false 0xff800000 0xff false = 0xC0 ∧
    convert_u32_to_bfp Bfp8_b false 0xff7f0000 0xff false = 0xC0 := by
  have hnz : x % 2 ^ 31 ≠ 0 := by
    rw [← Nat.and_pow_two_sub_one_eq_mod]; exact hx
  refine ⟨?_, ?_, ?_, by decide, by decide⟩
  · have h24 : 2 ^ 23 + x % 2 ^ 23 < 2 ^ 24 := by
      have := Nat.mod_lt x (show 2 ^ 23 > 0 by norm_num)
      have h : (2 : Nat) ^ 24 = 2 ^ 23 + 2 ^ 23 := by norm_num
      omega
    have hA : (if x / 2 ^ 23 % 256 ≤ S then (2 ^ 23 + x % 2 ^ 23) / 2 ^ (S - x / 2 ^ 23 % 256)
        else 2 ^ 23 + x % 2 ^ 23) < 2 ^ 24 := by
      split
      · exact lt_of_le_of_lt (Nat.div_le_self _ _) h24
      · exact h24
    rw [convert_u32_to_bfp_eq f t x S false hnz, rebias_exp_mantissa_native]
    simp only
    rw [align_mantissa_eq, reduce_mantissa_eq f t _ hA]
    unfold reference_quantizer
    have hsub : 24 - MANTISSA_BFP_WIDTH f - 1 = 23 - MANTISSA_BFP_WIDTH f := by omega
    simp only [ge_iff_le, hsub]
    generalize (if t = true then
        (if x / 2 ^ 23 % 256 ≤ S then (2 ^ 23 + x % 2 ^ 23) / 2 ^ (S - x / 2 ^ 23 % 256)
          else 2 ^ 23 + x % 2 ^ 23) / 2 ^ (24 - MANTISSA_BFP_WIDTH f)
      else min (((if x / 2 ^ 23 % 256 ≤ S then
            (2 ^ 23 + x % 2 ^ 23) / 2 ^ (S - x / 2 ^ 23 % 256)
          else 2 ^ 23 + x % 2 ^ 23) + 2 ^ (23 - MANTISSA_BFP_WIDTH f))
            / 2 ^ (24 - MANTISSA_BFP_WIDTH f)) (2 ^ MANTISSA_BFP_WIDTH f - 1)) = mag
    by_cases h0 : mag = 0
    · simp [h0]
    · simp [h0]
  · intro M d
    have h := shift_loop_spec d M d (le_refl _)
    exact ⟨h.1, by rw [h.2, Nat.shiftRight_eq_div_pow]⟩
  · intro m d hm hd
    apply Nat.div_eq_of_lt
    calc 2 ^ 23 + m < 2 ^ 24 := by
          have h : (2 : Nat) ^ 24 = 2 ^ 23 + 2 ^ 23 := by norm_num
          omega
      _ ≤ 2 ^ d := Nat.pow_le_pow_right (by norm_num) hd

/-- Witness for C16: the input `0xff7f0000` against shared exponent `0xff`, Bfp8. -/
theorem quantizer_reference_witness :
    convert_u32_to_bfp Bfp8 false 0xff7f0000 0xff false
      = reference_quantizer Bfp8 false 0xff7f0000 0xff :=
  (quantizer_reference Bfp8 false 0xff7f0000 0xff (by decide)).1

/-- C18, the code at a tie. Bfp8, Native, shared exponent 127, input `0x3F810000`:
the aligned mantissa `A = 2^23 + 2^16` lies exactly halfway between the multiples
`64 * 2^17` and `65 * 2^17`, nothing saturates, and the quantizer returns the odd
neighbour 65 where ties-to-even would give 64. -/
theorem rounding_tie_goes_up :
    0x3F810000 / 2 ^ 23 % 256 = 127 ∧
    (2 ^ 23 + 0x3F810000 % 2 ^ 23) / 2 ^ (127 - 127) % 2 ^ MANTISSA_BFP_SHIFT Bfp8
      = 2 ^ (MANTISSA_BFP_SHIFT Bfp8 - 1) ∧
    (2 ^ 23 + 0x3F810000 % 2 ^ 23) / 2 ^ (127 - 127) / 2 ^ MANTISSA_BFP_SHIFT Bfp8 = 64 ∧
    convert_u32_to_bfp Bfp8 false 0x3F810000 127 false = 65 ∧
    65 < MANTISSA_BFP_MAX_VAL Bfp8 := by
  refine ⟨?_, ?_, ?_, ?_, ?_⟩ <;> decide

/-- C20. Re-encoding a decoded code returns the code: for a supported format, a
canonical code `c` (magnitude `q ≠ 0` with any sign, or `c = 0`), `shiftCount =
W - 1 - log2 q` and a shared exponent `E` with `shiftCount < E ≤ 255` (Native) or
`shiftCount ≤ E ≤ 31` (Rebiased), quantizing the dequantized word against `E` gives
`c` back, with RoundHalfUp and with Truncate. The code with sign 1 and magnitude 0
re-encodes to 0 instead. -/
theorem reencode_decoded (f : DataFormat) (hf : is_bfp f = true) (c E : Nat)
    (is_exp_a t : Bool) (hc : c < 2 ^ (MANTISSA_BFP_WIDTH f + 1))
    (hcanon : c % 2 ^ MANTISSA_BFP_WIDTH f ≠ 0 ∨ c = 0)
    (hE : c % 2 ^ MANTISSA_BFP_WIDTH f ≠ 0 →
      (is_exp_a = false →
        MANTISSA_BFP_WIDTH f - 1 - Nat.log2 (c % 2 ^ MANTISSA_BFP_WIDTH f) < E ∧ E ≤ 255) ∧
      (is_exp_a = true →
        MANTISSA_BFP_WIDTH f - 1 - Nat.log2 (c % 2 ^ MANTISSA_BFP_WIDTH f) ≤ E ∧ E ≤ 31)) :
    convert_u32_to_bfp f t (convert_bfp_to_u32 f c E is_exp_a) E is_exp_a = c ∧
    convert_u32_to_bfp f t
      (convert_bfp_to_u32 f (1 * 2 ^ MANTISSA_BFP_WIDTH f) E is_exp_a) E is_exp_a = 0 := by
  have hww := width_cases f
  have hw : MANTISSA_BFP_WIDTH f ≤ 23 := by
    rcases hww with h | h | h <;> omega
  have hpos : 0 < 2 ^ MANTISSA_BFP_WIDTH f := Nat.pow_pos (by norm_num)
  have hzero : ∀ sg, sg ≤ 1 → convert_u32_to_bfp f t
      (convert_bfp_to_u32 f (sg * 2 ^ MANTISSA_BFP_WIDTH f) E is_exp_a) E is_exp_a = 0 := by
    intro sg hsg
    rw [convert_bfp_to_u32_generic f hf, generic_dequant_zero]
    apply convert_u32_to_bfp_of_zero
    rw [Nat.shiftLeft_eq]
    norm_num
  refine ⟨?_, hzero 1 (le_refl _)⟩
  by_cases h0 : c % 2 ^ MANTISSA_BFP_WIDTH f = 0
  · have hc0 : c = 0 := by
      rcases hcanon with h | h
      · exact absurd h0 h
      · exact h
    subst hc0
    have := hzero 0 (Nat.zero_le _)
    simpa using this
  · obtain ⟨hnat, hreb⟩ := hE h0
    have hsplit : c = c / 2 ^ MANTISSA_BFP_WIDTH f * 2 ^ MANTISSA_BFP_WIDTH f
        + c % 2 ^ MANTISSA_BFP_WIDTH f := by
      rw [Nat.mul_comm]; exact (Nat.div_add_mod _ _).symm
    have hsg : c / 2 ^ MANTISSA_BFP_WIDTH f ≤ 1 := by
      have : c / 2 ^ MANTISSA_BFP_WIDTH f < 2 := by
        apply Nat.div_lt_of_lt_mul
        rw [pow_succ] at hc
        exact hc
      omega
    have hq : c % 2 ^ MANTISSA_BFP_WIDTH f < 2 ^ MANTISSA_BFP_WIDTH f := Nat.mod_lt _ hpos
    generalize c / 2 ^ MANTISSA_BFP_WIDTH f = sg at hsplit hsg
    generalize c % 2 ^ MANTISSA_BFP_WIDTH f = q at hsplit hq h0 hnat hreb
    subst hsplit
    obtain ⟨_, hsc, hlo, hhi⟩ := leading_one_bounds _ q h0 hq
    generalize MANTISSA_BFP_WIDTH f - 1 - Nat.log2 q = sc at hsc hlo hhi hnat hreb
    have hscE : sc ≤ E := by
      cases is_exp_a with
      | false => exact le_of_lt (hnat rfl).1
      | true => exact (hreb rfl).1
    have hX : E - sc + (if is_exp_a then 112 else 0) ≤ 255 := by
      cases is_exp_a with
      | false => have := (hnat rfl).2; simp; omega
      | true => have := (hreb rfl).2; simp; omega
    have hX1 : 1 ≤ E - sc + (if is_exp_a then 112 else 0) := by
      cases is_exp_a with
      | false => have := (hnat rfl).1; simp; omega
      | true => simp
    rw [convert_bfp_to_u32_generic f hf,
      generic_dequant_eq _ sg q sc E is_exp_a hw hsg hsc hlo hhi hscE hX]
    have hr : q * 2 ^ (sc + 1) % 2 ^ MANTISSA_BFP_WIDTH f < 2 ^ MANTISSA_BFP_WIDTH f :=
      Nat.mod_lt _ hpos
    obtain ⟨f1, f2, f3, f4⟩ := assembled_fields _ sg _ _ hww hsg hX hr
    obtain ⟨k1, k2⟩ := reencode_core _ sc q hww hsc hlo hhi
    have hmant : q * 2 ^ (sc + 1) % 2 ^ MANTISSA_BFP_WIDTH f * 2 ^ (23 - MANTISSA_BFP_WIDTH f)
        < 2 ^ 23 := by
      calc q * 2 ^ (sc + 1) % 2 ^ MANTISSA_BFP_WIDTH f * 2 ^ (23 - MANTISSA_BFP_WIDTH f)
          < 2 ^ MANTISSA_BFP_WIDTH f * 2 ^ (23 - MANTISSA_BFP_WIDTH f) :=
            Nat.mul_lt_mul_of_pos_right hr (Nat.pow_pos (by norm_num))
        _ = 2 ^ 23 := by rw [← pow_add]; congr 1; omega
    have hnz : (sg * 2 ^ 31 + (E - sc + (if is_exp_a then 112 else 0)) * 2 ^ 23
        + q * 2 ^ (sc + 1) % 2 ^ MANTISSA_BFP_WIDTH f * 2 ^ (23 - MANTISSA_BFP_WIDTH f))
        % 2 ^ 31 ≠ 0 := by
      rw [f4]
      have : 1 * 2 ^ 23 ≤ (E - sc + (if is_exp_a then 112 else 0)) * 2 ^ 23 :=
        Nat.mul_le_mul_right _ hX1
      omega
    rw [convert_u32_to_bfp_eq f t _ E is_exp_a hnz, f1, f2, f3]
    have hem : rebias_exp_mantissa (E - sc + (if is_exp_a then 112 else 0))
        (q * 2 ^ (sc + 1) % 2 ^ MANTISSA_BFP_WIDTH f * 2 ^ (23 - MANTISSA_BFP_WIDTH f)) is_exp_a
        = (E - sc,
           q * 2 ^ (sc + 1) % 2 ^ MANTISSA_BFP_WIDTH f * 2 ^ (23 - MANTISSA_BFP_WIDTH f)) := by
      cases is_exp_a with
      | false => rw [rebias_exp_mantissa_native]; simp
      | true =>
        have := (hreb rfl).2
        simp only [if_true]
        rw [rebias_exp_mantissa_mid _ _ (by omega) (by omega), Nat.add_sub_cancel]
    rw [hem]
    simp only
    have hEsub : E - (E - sc) = sc := by omega
    have h24 : 2 ^ 23 + q * 2 ^ (sc + 1) % 2 ^ MANTISSA_BFP_WIDTH f
        * 2 ^ (23 - MANTISSA_BFP_WIDTH f) < 2 ^ 24 := by
      have h : (2 : Nat) ^ 24 = 2 ^ 23 + 2 ^ 23 := by norm_num
      omega
    rw [align_mantissa_eq, if_pos (Nat.sub_le _ _), hEsub,
      reduce_mantissa_eq f t _ (lt_of_le_of_lt (Nat.div_le_self _ _) h24)]
    have hmag : (if t = true then
          (2 ^ 23 + q * 2 ^ (sc + 1) % 2 ^ MANTISSA_BFP_WIDTH f
            * 2 ^ (23 - MANTISSA_BFP_WIDTH f)) / 2 ^ sc / 2 ^ (24 - MANTISSA_BFP_WIDTH f)
        else min (((2 ^ 23 + q * 2 ^ (sc + 1) % 2 ^ MANTISSA_BFP_WIDTH f
            * 2 ^ (23 - MANTISSA_BFP_WIDTH f)) / 2 ^ sc + 2 ^ (23 - MANTISSA_BFP_WIDTH f))
            / 2 ^ (24 - MANTISSA_BFP_WIDTH f)) (2 ^ MANTISSA_BFP_WIDTH f - 1)) = q := by
      cases t with
      | true => simp only [if_true]; exact k1
      | false => simp only [Bool.false_eq_true, if_false]; exact k2
    rw [hmag, if_neg h0]

/-- Witness for C20: the Bfp4 code `0xB` (sign 1, magnitude 3) against shared
exponent 20, Rebiased, RoundHalfUp. -/
theorem reencode_decoded_witness :
    convert_u32_to_bfp Bfp4 false (convert_bfp_to_u32 Bfp4 0xB 20 true) 20 true = 0xB :=
  (reencode_decoded Bfp4 (by decide) 0xB 20 true false (by decide) (Or.inl (by decide))
    (fun _ => ⟨fun h => absurd h (by decide),
      fun _ => ⟨le_trans (Nat.sub_le _ _) (by decide), by decide⟩⟩)).1

/-- C21. The quantizer is monotone in the absolute value of the input: for every
format, both conventions, both rounding modes and every shared exponent `S`, if
`a & 0x7fffffff ≤ b & 0x7fffffff` and the exponent the quantizer computes for `b`
(rebiased when Rebiased) is at most `S`, then the magnitude of the code of `a` is at
most the magnitude of the code of `b`. -/
theorem quantizer_monotone (f : DataFormat) (t : Bool) (a b S : Nat) (is_exp_a : Bool)
    (hab : a &&& 0x7fffffff ≤ b &&& 0x7fffffff)
    (hS : (rebias_exp_mantissa ((b &&& 0x7f800000) >>> 23) (b &&& 0x007fffff) is_exp_a).1 ≤ S) :
    convert_u32_to_bfp f t a S is_exp_a % 2 ^ MANTISSA_BFP_WIDTH f
      ≤ convert_u32_to_bfp f t b S is_exp_a % 2 ^ MANTISSA_BFP_WIDTH f := by
  have hmask : ∀ x : Nat, x &&& 0x7fffffff = x % 2 ^ 31 :=
    fun x => Nat.and_pow_two_sub_one_eq_mod x 31
  rw [hmask, hmask] at hab
  rw [exp_field_eq, and_mantissa_mask] at hS
  by_cases ha : a % 2 ^ 31 = 0
  · rw [convert_u32_to_bfp_of_zero f t a S is_exp_a ha]
    simp
  · have hb : b % 2 ^ 31 ≠ 0 := by omega
    rw [convert_u32_to_bfp_magnitude f t a S is_exp_a ha,
      convert_u32_to_bfp_magnitude f t b S is_exp_a hb]
    have hma : a % 2 ^ 23 < 2 ^ 23 := Nat.mod_lt _ (by norm_num)
    have hmb : b % 2 ^ 23 < 2 ^ 23 := Nat.mod_lt _ (by norm_num)
    have hlex : a / 2 ^ 23 % 256 < b / 2 ^ 23 % 256 ∨
        (a / 2 ^ 23 % 256 = b / 2 ^ 23 % 256 ∧ a % 2 ^ 23 ≤ b % 2 ^ 23) := by
      norm_num at hab ⊢
      omega
    have hreb := rebias_exp_mantissa_mono _ _ _ _ is_exp_a hma hlex
    have hra := rebias_mantissa_lt (a / 2 ^ 23 % 256) (a % 2 ^ 23) is_exp_a hma
    have hrb := rebias_mantissa_lt (b / 2 ^ 23 % 256) (b % 2 ^ 23) is_exp_a hmb
    generalize rebias_exp_mantissa (a / 2 ^ 23 % 256) (a % 2 ^ 23) is_exp_a = ra at hreb hra ⊢
    generalize rebias_exp_mantissa (b / 2 ^ 23 % 256) (b % 2 ^ 23) is_exp_a = rb at hreb hrb hS ⊢
    apply reduce_mantissa_mono
    · exact align_mantissa_mono ra.1 rb.1 ra.2 rb.2 S hra hS hreb
    · have := align_mantissa_le (2 ^ 23 + rb.2) S rb.1
      have h24 : (2 : Nat) ^ 24 = 2 ^ 23 + 2 ^ 23 := by norm_num
      omega

/-- Witness for C21: two elements of the regression block, Bfp8, Native, shared
exponent 124. -/
theorem quantizer_monotone_witness :
    convert_u32_to_bfp Bfp8 false 0x3D0A0000 124 false % 2 ^ MANTISSA_BFP_WIDTH Bfp8
      ≤ convert_u32_to_bfp Bfp8 false 0xBE020000 124 false % 2 ^ MANTISSA_BFP_WIDTH Bfp8 :=
  quantizer_monotone Bfp8 false 0x3D0A0000 0xBE020000 124 false (by decide) (by decide)

end Bfp
